import Mathlib

/-!
Verification development for the tag-cache consistency subsystem of the
ida-minsc plugin (src/misc/hooks.py).  The hook handlers are embedded
shallowly: the host database, the reference-count ledger and the pending
correlation states live in a single `World` record, and every handler is a
pure function on `World`.  Collaborator modules that are not part of the
sources under analysis (the comment codec, the ledger primitives, the hook
registry and the address predicates of the interface module) are modelled
from the specification; each such definition is marked in its doc comment.
-/

namespace Minsc

/-! ## Tag codec (spec-modelled) -/

/-- Modelled from the spec: splitting of a comment string into lines,
used by the line-oriented tag codec below (the internal.comment module is
not among the analysed sources). -/
def splitLines : List Char → List (List Char)
  | [] => [[]]
  | c :: cs =>
    if c = '\n' then [] :: splitLines cs
    else
      match splitLines cs with
      | [] => [[c]]
      | l :: ls => (c :: l) :: ls

/-- Modelled from the spec: break a line at the first colon, yielding the
key and the value of one encoded tag.  A line with no colon is malformed
and is skipped by the decoder (best-effort decoding never raises). -/
def breakColon : List Char → Option (List Char × List Char)
  | [] => none
  | c :: cs =>
    if c = ':' then some ([], cs)
    else (breakColon cs).map (fun p => (c :: p.1, p.2))

/-- Modelled from the spec: parse a single line into a (key, value) pair. -/
def parseTagLine (l : List Char) : Option (String × String) :=
  (breakColon l).map (fun p => (String.mk p.1, String.mk p.2))

/-- Keep only the first occurrence of every key of an association list. -/
def dedupKeys : List (String × String) → List (String × String)
  | [] => []
  | p :: rest => p :: (dedupKeys rest).filter (fun q => decide (q.1 ≠ p.1))

/-- Modelled from the spec: decode(text) yields the tag mapping stored in a
comment string; malformed text decodes best-effort (never raises) and the
empty string decodes to the empty mapping. -/
def decode (s : String) : List (String × String) :=
  dedupKeys ((splitLines s.data).filterMap parseTagLine)

/-- Modelled from the spec: characters of the encoding of a tag mapping,
one key:value line per tag. -/
def encodeChars : List (String × String) → List Char
  | [] => []
  | [p] => p.1.data ++ ':' :: p.2.data
  | p :: q :: rest => p.1.data ++ ':' :: p.2.data ++ '\n' :: encodeChars (q :: rest)

/-- Modelled from the spec: encode(mapping) is the comment text storing the
mapping; the empty mapping encodes to the empty text. -/
def encode (m : List (String × String)) : String :=
  String.mk (encodeChars m)

/-- Modelled from the spec: check(text) reports whether the text is exactly
the encoding of some valid mapping. -/
def check (s : String) : Bool :=
  encode (decode s) == s

/-- The keys of a decoded tag mapping. -/
def keysOf (m : List (String × String)) : List String :=
  m.map (fun p => p.1)

/-! ## Events, log entries and database lifecycle -/

/-- Database lifecycle states (class state of hooks.py). -/
inductive St
  | start
  | loaded
  | ready
deriving DecidableEq, Repr

/-- Names of the idb hooks that the handlers disable and re-enable around
their own writes. -/
inductive HookName
  | changingCmt
  | cmtChanged
  | changingRangeCmt
  | rangeCmtChanged
  | changingTi
  | tiChanged
deriving DecidableEq, Repr

/-- Events recorded in the trace: hook state changes and comment writes. -/
inductive Ev
  | disable (n : HookName)
  | enable (n : HookName)
  | write
deriving DecidableEq, Repr

/-- Abstract log entries; each constructor stands for one logging call of
hooks.py at the indicated severity. -/
inductive LEntry
  | debugNotReady
  | debugIdent
  | debugOOB
  | debugRecv
  | infoForceClose
  | debugTerminated
  | warnDiffers
  | fatalOutOfSync
  | warnDeleted
  | fatalAbandon
  | fatalNoState
  | warnTiMismatch
  | debugTi
  | warnOwners
deriving DecidableEq, Repr

/-- Outcome oracle for the coroutine submission and the comment write: the
normal path, an unexpected StopIteration (caught and logged fatal), or any
other exception (propagates through the finally blocks). -/
inductive ExcO
  | norm
  | stopIter
  | other
deriving DecidableEq, Repr

/-- Failures that escape a handler. -/
inductive Flt
  | excOther
  | addrNotFound
deriving DecidableEq, Repr

/-- Pending correlation state of the comment correlator: `primed` right
after new() has stored the consumer coroutine, `awaiting` once the
changing payload has been submitted and phase 1 has run. -/
inductive APend
  | primed
  | awaiting (rpt : Bool) (newText : String) (o n : List (String × String))
deriving DecidableEq, Repr

/-- Pending correlation state of the function-comment correlator; the
coroutine keeps the address it received and the function resolved from
it. -/
inductive GPend
  | primed
  | awaiting (ea0 fnS : Nat) (rpt : Bool) (newText : String) (o n : List (String × String))
deriving DecidableEq, Repr

/-- Pending correlation state of the typeinfo correlator. -/
inductive TPend
  | primed
  | awaiting (ea0 : Nat) (original expected : String × String)
deriving DecidableEq, Repr

/-! ## The world -/

/-- The state everything runs on: the host database view (comments,
function metadata, identifier and bounds predicates), the reference-count
ledger (globals and per-function contents, each with a per-key and a
per-address index), the hook disable depths, the pending correlation
states of the three correlators, the iteration structure used by the bulk
jobs, the hook/write trace and the log. -/
structure World where
  dbstate : Option St
  cmts : Nat → Bool → String
  fcmts : Nat → Bool → String
  func : Nat → Option Nat
  rtl : Nat → Bool
  ident : Nat → Bool
  inb : Nat → Bool
  tinfo : Nat → String × String
  gkeys : String → Nat
  gaddr : Nat → Nat
  ckeys : Nat → String → Nat
  caddr : Nat → Nat → Nat
  hooks : HookName → Nat
  astates : List (Nat × APend)
  gstates : List (Nat × GPend)
  tstates : List (Nat × TPend)
  funcs : List Nat
  imports : List Nat
  chunksOf : Nat → List (Nat × Nat)
  enumAddrs : Nat → Nat → List Nat
  owners : Nat → List Nat
  trace : List Ev
  log : List LEntry

/-- Bump a counter function at one point. -/
def bump {α : Type} [DecidableEq α] (f : α → Nat) (a : α) : α → Nat :=
  Function.update f a (f a + 1)

/-- Clamped decrement of a counter function at one point (per the spec a
decrement below zero is clamped and logged, non-fatally). -/
def drop1 {α : Type} [DecidableEq α] (f : α → Nat) (a : α) : α → Nat :=
  Function.update f a (f a - 1)

/-- Modelled from the spec: internal.comment.globals.inc(ea, key) bumps
the database-wide count of the key and the per-address count. -/
def ginc (ea : Nat) (k : String) (w : World) : World :=
  { w with gkeys := bump w.gkeys k, gaddr := bump w.gaddr ea }

/-- Modelled from the spec: internal.comment.globals.dec(ea, key),
clamped at zero. -/
def gdec (ea : Nat) (k : String) (w : World) : World :=
  { w with gkeys := drop1 w.gkeys k, gaddr := drop1 w.gaddr ea }

/-- Modelled from the spec: internal.comment.contents.inc(ea, key,
target=own) bumps the owning function's per-key and per-address counts. -/
def cincAt (own ea : Nat) (k : String) (w : World) : World :=
  { w with ckeys := Function.update w.ckeys own (bump (w.ckeys own) k),
           caddr := Function.update w.caddr own (bump (w.caddr own) ea) }

/-- Modelled from the spec: internal.comment.contents.dec(ea, key,
target=own), clamped at zero. -/
def cdecAt (own ea : Nat) (k : String) (w : World) : World :=
  { w with ckeys := Function.update w.ckeys own (drop1 (w.ckeys own) k),
           caddr := Function.update w.caddr own (drop1 (w.caddr own) ea) }

/-- Append one log entry. -/
def logE (w : World) (e : LEntry) : World :=
  { w with log := w.log ++ [e] }

/-- ui.hook.idb.disable(name): reference-counted per §9 of the design
notes (the ui module is not among the analysed sources). -/
def disableHook (n : HookName) (w : World) : World :=
  { w with hooks := bump w.hooks n, trace := w.trace ++ [Ev.disable n] }

/-- ui.hook.idb.enable(name). -/
def enableHook (n : HookName) (w : World) : World :=
  { w with hooks := drop1 w.hooks n, trace := w.trace ++ [Ev.enable n] }

/-- idaapi.set_cmt(ea, text, rpt); recorded as a write event. -/
def setCmt (ea : Nat) (rpt : Bool) (s : String) (w : World) : World :=
  { w with cmts := fun a b => if a = ea ∧ b = rpt then s else w.cmts a b,
           trace := w.trace ++ [Ev.write] }

/-- idaapi.set_func_cmt(fn, text, rpt), keyed by the function start. -/
def setFuncCmt (fn : Nat) (rpt : Bool) (s : String) (w : World) : World :=
  { w with fcmts := fun a b => if a = fn ∧ b = rpt then s else w.fcmts a b,
           trace := w.trace ++ [Ev.write] }

/-- Whether the database is ready (changingchanged.is_ready). -/
def isReady (w : World) : Prop :=
  w.dbstate = some St.ready

instance (w : World) : Decidable (isReady w) := by
  unfold isReady; infer_instance

/-- The contents/globals selector of address.get_func_extern: a contents
tag exactly when the address has an owning function that is not
runtime-linked. -/
def selQ (w : World) (ea : Nat) : Bool :=
  (w.func ea).isSome && !(w.rtl ea)

/-- The owning function start used by the contents primitives when no
explicit target is given. -/
def ownerOf (w : World) (ea : Nat) : Nat :=
  (w.func ea).getD 0

/-! ## Association-list state dictionaries -/

/-- Lookup in a state dictionary (first match). -/
def sfind {α : Type} : List (Nat × α) → Nat → Option α
  | [], _ => none
  | p :: rest, ea => if p.1 = ea then some p.2 else sfind rest ea

/-- Remove every entry of an address (dict.pop). -/
def serase {α : Type} (s : List (Nat × α)) (ea : Nat) : List (Nat × α) :=
  s.filter (fun p => decide (p.1 ≠ ea))

/-- Store an entry for an address, replacing any previous one. -/
def sset {α : Type} (s : List (Nat × α)) (ea : Nat) (v : α) : List (Nat × α) :=
  (ea, v) :: serase s ea

/-! ## Reference updates of the comment correlator (hooks.py, class address) -/

/-- The iteration set of address._update_refs: the symmetric difference of
the old and the new key sets, each key once. -/
def symmKeys (o n : List (String × String)) : List String :=
  (keysOf o).dedup.filter (fun k => decide (k ∉ keysOf n)) ++
    (keysOf n).dedup.filter (fun k => decide (k ∉ keysOf o))

/-- One iteration of the loop of address._update_refs: a key missing from
the new mapping is decremented, a key missing from the old mapping is
incremented, in the namespace selected once per call. -/
def urStep (q : Bool) (own ea : Nat) (oks nks : List String) (acc : World) (k : String) :
    World :=
  let a1 := if k ∈ nks then acc else (if q then cdecAt own ea k acc else gdec ea k acc)
  if k ∈ oks then a1 else (if q then cincAt own ea k a1 else ginc ea k a1)

/-- address._update_refs(ea, old, new): diff the key sets and adjust the
reference counts of the owning namespace. -/
def updateRefs (ea : Nat) (o n : List (String × String)) (w : World) : World :=
  (symmKeys o n).foldl (urStep (selQ w ea) (ownerOf w ea) ea (keysOf o) (keysOf n)) w

/-- address._create_refs(ea, content): increment every key of the decoded
mapping in the owning namespace. -/
def createRefs (ea : Nat) (content : List (String × String)) (w : World) : World :=
  (keysOf content).dedup.foldl
    (fun acc k => if selQ w ea then cincAt (ownerOf w ea) ea k acc else ginc ea k acc) w

/-- address._delete_refs(ea, content): decrement every key of the decoded
mapping in the owning namespace. -/
def deleteRefs (ea : Nat) (content : List (String × String)) (w : World) : World :=
  (keysOf content).dedup.foldl
    (fun acc k => if selQ w ea then cdecAt (ownerOf w ea) ea k acc else gdec ea k acc) w

/-! ## The comment correlator (hooks.py, class address) -/

/-- The changing half of address.updater: read the stored comment before
it is overwritten, decode both sides and pre-apply the reference delta;
the returned pending state holds what the coroutine keeps across the
suspension. -/
def aPhase1 (ea : Nat) (rpt : Bool) (newText : String) (w : World) : World × APend :=
  let o := decode (w.cmts ea rpt)
  let n := decode newText
  (updateRefs ea o n w, APend.awaiting rpt newText o n)

/-- The changed half of address.updater: if the changed event matches the
promised (address, repeatable, None) triple, canonicalize or delete;
otherwise log fatal, delete the old references, blank the comment and
recreate references from what the database now reports. -/
def aPhase2 (ea : Nat) (rpt0 : Bool) (ntext : String) (o n : List (String × String))
    (newea : Nat) (nrpt : Bool) (w : World) : World :=
  if newea = ea ∧ nrpt = rpt0 then
    let w1 := if w.cmts ea rpt0 = ntext then w else logE w LEntry.warnDiffers
    if check ntext then setCmt ea rpt0 ntext w1
    else if ntext ≠ "" then setCmt ea rpt0 ntext w1
    else deleteRefs ea n w1
  else
    let w2 := deleteRefs ea o (logE w LEntry.fatalOutOfSync)
    let w3 := logE (setCmt ea rpt0 "" w2) LEntry.warnDeleted
    createRefs newea (decode (w3.cmts newea nrpt)) w3

/-- changingchanged.new for the comment correlator: an already-pending
state for the address is forcefully closed first (the generator's
GeneratorExit branch runs, which only logs), then the fresh consumer is
stored. -/
def anew (ea : Nat) (w : World) : World :=
  let wclosed :=
    match sfind w.astates ea with
    | some (APend.awaiting _ _ _ _) =>
        logE (logE w LEntry.infoForceClose) LEntry.debugTerminated
    | some APend.primed => logE w LEntry.infoForceClose
    | none => w
  { wclosed with astates := sset wclosed.astates ea APend.primed }

/-- address.changing(ea, repeatable_cmt, newcmt). -/
def addressChanging (ea : Nat) (rpt : Bool) (newcmt : String) (exc : ExcO) (w : World) :
    World × Option Flt :=
  if isReady w then
    if w.ident ea then (logE w LEntry.debugIdent, none)
    else
      let w1 := anew ea (logE w LEntry.debugRecv)
      let w2 := disableHook HookName.cmtChanged (disableHook HookName.changingCmt w1)
      match exc with
      | ExcO.norm =>
          let pr := aPhase1 ea rpt newcmt w2
          let w3 := { pr.1 with astates := sset pr.1.astates ea pr.2 }
          (enableHook HookName.cmtChanged (enableHook HookName.changingCmt w3), none)
      | ExcO.stopIter =>
          (enableHook HookName.cmtChanged
            (enableHook HookName.changingCmt (logE w2 LEntry.fatalAbandon)), none)
      | ExcO.other =>
          (enableHook HookName.cmtChanged (enableHook HookName.changingCmt w2),
            some Flt.excOther)
  else (logE w LEntry.debugNotReady, none)

/-- address.changed(ea, repeatable_cmt).  resume raises AddressNotFound
when no pending state exists; on the normal path the submitted triple is
(ea, repeatable, None) and the state is closed (popped) afterwards. -/
def addressChanged (ea : Nat) (rpt : Bool) (exc : ExcO) (w : World) : World × Option Flt :=
  if isReady w then
    if w.ident ea then (logE w LEntry.debugIdent, none)
    else
      let w1 := logE w LEntry.debugRecv
      match sfind w1.astates ea with
      | none => (w1, some Flt.addrNotFound)
      | some st =>
          let w2 := disableHook HookName.cmtChanged (disableHook HookName.changingCmt w1)
          match exc with
          | ExcO.norm =>
              match st with
              | APend.awaiting rpt0 ntext o n =>
                  let w3 := aPhase2 ea rpt0 ntext o n ea rpt w2
                  let w4 := enableHook HookName.cmtChanged
                    (enableHook HookName.changingCmt w3)
                  ({ w4 with astates := serase w4.astates ea }, none)
              | APend.primed =>
                  let pr := aPhase1 ea rpt "" w2
                  let w3 := { pr.1 with astates := sset pr.1.astates ea pr.2 }
                  let w4 := enableHook HookName.cmtChanged
                    (enableHook HookName.changingCmt w3)
                  (logE w4 LEntry.debugTerminated, none)
          | ExcO.stopIter =>
              (enableHook HookName.cmtChanged
                (enableHook HookName.changingCmt (logE w2 LEntry.fatalAbandon)), none)
          | ExcO.other =>
              (enableHook HookName.cmtChanged (enableHook HookName.changingCmt w2),
                some Flt.excOther)
  else (logE w LEntry.debugNotReady, none)

/-- address.old_changed(ea, repeatable_cmt), the single-event variant for
old hosts: zero the address in the owning namespace, recreate references
from the stored comment and, when it is non-empty, rewrite it inside a
disable/enable bracket of the cmt_changed hook. -/
def addressOldChanged (ea : Nat) (rpt : Bool) (exc : ExcO) (w : World) : World × Option Flt :=
  if isReady w then
    if w.ident ea then (logE w LEntry.debugIdent, none)
    else
      let w1 := logE w LEntry.debugRecv
      let cmt := w1.cmts ea rpt
      let czero := Function.update w1.caddr (ownerOf w1 ea)
        (Function.update (w1.caddr (ownerOf w1 ea)) ea 0)
      let gzero := Function.update w1.gaddr ea 0
      let w2 :=
        if selQ w1 ea then { w1 with caddr := czero }
        else { w1 with gaddr := gzero }
      let res := decode cmt
      if res = [] then (w2, none)
      else
        let w3 := createRefs ea res w2
        let w4 := disableHook HookName.cmtChanged w3
        match exc with
        | ExcO.other => (enableHook HookName.cmtChanged w4, some Flt.excOther)
        | _ =>
            let w5 := setCmt ea rpt (encode res) w4
            (enableHook HookName.cmtChanged w5, none)
  else (logE w LEntry.debugNotReady, none)

/-! ## The function-comment correlator (hooks.py, class globals) -/

/-- globals._update_refs(fn, old, new): the same symmetric-difference walk
as the comment correlator, always against the globals namespace at the
function start. -/
def gUpdateRefs (fnS : Nat) (o n : List (String × String)) (w : World) : World :=
  (symmKeys o n).foldl
    (fun acc k =>
      let a1 := if k ∈ keysOf n then acc else gdec fnS k acc
      if k ∈ keysOf o then a1 else ginc fnS k a1) w

/-- globals._create_refs(fn, content). -/
def gCreateRefs (fnS : Nat) (content : List (String × String)) (w : World) : World :=
  (keysOf content).dedup.foldl (fun acc k => ginc fnS k acc) w

/-- globals._delete_refs(fn, content). -/
def gDeleteRefs (fnS : Nat) (content : List (String × String)) (w : World) : World :=
  (keysOf content).dedup.foldl (fun acc k => gdec fnS k acc) w

/-- The changing half of globals.updater: resolve the function of the
submitted address, read and decode its current comment, pre-apply the
reference delta. -/
def gPhase1 (ea0 : Nat) (rpt : Bool) (newText : String) (w : World) : World × GPend :=
  let fnS := (w.func ea0).getD 0
  let o := decode (w.fcmts fnS rpt)
  let n := decode newText
  (gUpdateRefs fnS o n w, GPend.awaiting ea0 fnS rpt newText o n)

/-- The changed half of globals.updater. -/
def gPhase2 (ea0 fnS : Nat) (rpt0 : Bool) (ntext : String) (o n : List (String × String))
    (newea : Nat) (nrpt : Bool) (w : World) : World :=
  if newea = ea0 ∧ nrpt = rpt0 then
    let w1 := if w.fcmts fnS rpt0 = ntext then w else logE w LEntry.warnDiffers
    if check ntext then setFuncCmt fnS rpt0 ntext w1
    else if ntext ≠ "" then setFuncCmt fnS rpt0 ntext w1
    else gDeleteRefs fnS n w1
  else
    let w2 := gDeleteRefs fnS o (logE w LEntry.fatalOutOfSync)
    let w3 := logE (setFuncCmt fnS rpt0 "" w2) LEntry.warnDeleted
    let newfnS := (w3.func newea).getD 0
    gCreateRefs newfnS (decode (w3.fcmts newfnS nrpt)) w3

/-- changingchanged.new for the function-comment correlator. -/
def gnew (ea : Nat) (w : World) : World :=
  let wclosed :=
    match sfind w.gstates ea with
    | some (GPend.awaiting _ _ _ _ _ _) =>
        logE (logE w LEntry.infoForceClose) LEntry.debugTerminated
    | some GPend.primed => logE w LEntry.infoForceClose
    | none => w
  { wclosed with gstates := sset wclosed.gstates ea GPend.primed }

/-- globals.changing(cb, a, cmt, repeatable); the area argument is
represented by its start address.  The coroutine is sent the start of the
resolved function. -/
def globalsChanging (aStart : Nat) (cmt : String) (rpt : Bool) (exc : ExcO) (w : World) :
    World × Option Flt :=
  if isReady w then
    if w.ident aStart then (logE w LEntry.debugIdent, none)
    else
      let w1 := logE w LEntry.debugRecv
      if w1.func aStart = none ∧ cmt = "" then (w1, none)
      else
        let fnS := (w1.func aStart).getD 0
        let w2 := gnew aStart w1
        let w3 := disableHook HookName.rangeCmtChanged
          (disableHook HookName.changingRangeCmt w2)
        match exc with
        | ExcO.norm =>
            let pr := gPhase1 fnS rpt cmt w3
            let w4 := { pr.1 with gstates := sset pr.1.gstates aStart pr.2 }
            (enableHook HookName.rangeCmtChanged
              (enableHook HookName.changingRangeCmt w4), none)
        | ExcO.stopIter =>
            (enableHook HookName.rangeCmtChanged
              (enableHook HookName.changingRangeCmt (logE w3 LEntry.fatalAbandon)), none)
        | ExcO.other =>
            (enableHook HookName.rangeCmtChanged
              (enableHook HookName.changingRangeCmt w3), some Flt.excOther)
  else (logE w LEntry.debugNotReady, none)

/-- globals.changed(cb, a, cmt, repeatable). -/
def globalsChanged (aStart : Nat) (cmt : String) (rpt : Bool) (exc : ExcO) (w : World) :
    World × Option Flt :=
  if isReady w then
    if w.ident aStart then (logE w LEntry.debugIdent, none)
    else
      let w1 := logE w LEntry.debugRecv
      if w1.func aStart = none ∧ cmt = "" then (w1, none)
      else
        match sfind w1.gstates aStart with
        | none => (w1, some Flt.addrNotFound)
        | some st =>
            let fnS := (w1.func aStart).getD 0
            let w2 := disableHook HookName.rangeCmtChanged
              (disableHook HookName.changingRangeCmt w1)
            match exc with
            | ExcO.norm =>
                match st with
                | GPend.awaiting ea0 fnS0 rpt0 ntext o n =>
                    let w3 := gPhase2 ea0 fnS0 rpt0 ntext o n fnS rpt w2
                    let w4 := enableHook HookName.rangeCmtChanged
                      (enableHook HookName.changingRangeCmt w3)
                    ({ w4 with gstates := serase w4.gstates aStart }, none)
                | GPend.primed =>
                    let pr := gPhase1 fnS rpt "" w2
                    let w3 := { pr.1 with gstates := sset pr.1.gstates aStart pr.2 }
                    let w4 := enableHook HookName.rangeCmtChanged
                      (enableHook HookName.changingRangeCmt w3)
                    (logE w4 LEntry.debugTerminated, none)
            | ExcO.stopIter =>
                (enableHook HookName.rangeCmtChanged
                  (enableHook HookName.changingRangeCmt (logE w2 LEntry.fatalAbandon)),
                  none)
            | ExcO.other =>
                (enableHook HookName.rangeCmtChanged
                  (enableHook HookName.changingRangeCmt w2), some Flt.excOther)
  else (logE w LEntry.debugNotReady, none)

/-! ## The typeinfo correlator (hooks.py, class typeinfo) -/

/-- changingchanged.new for the typeinfo correlator. -/
def tnew (ea : Nat) (w : World) : World :=
  let wclosed :=
    match sfind w.tstates ea with
    | some (TPend.awaiting _ _ _) =>
        logE (logE w LEntry.infoForceClose) LEntry.debugTerminated
    | some TPend.primed => logE w LEntry.infoForceClose
    | none => w
  { wclosed with tstates := sset wclosed.tstates ea TPend.primed }

/-- typeinfo.changing(ea, new_type, new_fname): identifier and database
bounds are both checked before any state is created; phase 1 of the
updater decrements the __typeinfo__ reference when type information was
present. -/
def typeinfoChanging (ea : Nat) (newType newFname : String) (exc : ExcO) (w : World) :
    World × Option Flt :=
  if isReady w then
    if w.ident ea then (logE w LEntry.debugIdent, none)
    else if w.inb ea = false then (logE w LEntry.debugOOB, none)
    else
      let w1 := logE w LEntry.debugRecv
      let original := w1.tinfo ea
      let nw := (newType, newFname)
      let w2 := tnew ea w1
      let w3 := disableHook HookName.tiChanged (disableHook HookName.changingTi w2)
      match exc with
      | ExcO.norm =>
          let w4 := if original.1 ≠ "" ∨ original.2 ≠ "" then
              gdec ea "__typeinfo__" w3
            else w3
          let w5 := { w4 with tstates := sset w4.tstates ea (TPend.awaiting ea original nw) }
          (enableHook HookName.tiChanged (enableHook HookName.changingTi w5), none)
      | ExcO.stopIter =>
          (enableHook HookName.tiChanged
            (enableHook HookName.changingTi (logE w3 LEntry.fatalAbandon)), none)
      | ExcO.other =>
          (enableHook HookName.tiChanged (enableHook HookName.changingTi w3),
            some Flt.excOther)
  else (logE w LEntry.debugNotReady, none)

/-- typeinfo.changed(ea, type, fnames): phase 2 of the updater warns when
the pair of events disagrees and re-adds the __typeinfo__ reference when
the final serialized type is non-empty. -/
def typeinfoChanged (ea : Nat) (ty fnames : String) (exc : ExcO) (w : World) :
    World × Option Flt :=
  if isReady w then
    if w.ident ea then (logE w LEntry.debugIdent, none)
    else if w.inb ea = false then (logE w LEntry.debugOOB, none)
    else
      let w1 := logE w LEntry.debugRecv
      match sfind w1.tstates ea with
      | none => (w1, some Flt.addrNotFound)
      | some st =>
          let nw := (ty, fnames)
          let w2 := disableHook HookName.tiChanged (disableHook HookName.changingTi w1)
          match exc with
          | ExcO.norm =>
              match st with
              | TPend.awaiting ea0 _original expected =>
                  let w3 := if ea0 = ea ∧ expected = nw then w2
                    else logE w2 LEntry.warnTiMismatch
                  let w4 := if nw.1 ≠ "" ∨ nw.2 ≠ "" then
                      logE (ginc ea "__typeinfo__" w3) LEntry.debugTi
                    else logE w3 LEntry.debugTi
                  let w5 := enableHook HookName.tiChanged
                    (enableHook HookName.changingTi w4)
                  ({ w5 with tstates := serase w5.tstates ea }, none)
              | TPend.primed =>
                  (enableHook HookName.tiChanged
                    (enableHook HookName.changingTi (logE w2 LEntry.fatalAbandon)), none)
          | ExcO.stopIter =>
              (enableHook HookName.tiChanged
                (enableHook HookName.changingTi (logE w2 LEntry.fatalAbandon)), none)
          | ExcO.other =>
              (enableHook HookName.tiChanged (enableHook HookName.changingTi w2),
                some Flt.excOther)
  else (logE w LEntry.debugNotReady, none)

/-! ## Structural handlers: function tails (hooks.py) -/

/-- Modelled from the spec: database.tag(ea) reconstructs the tag mapping
of an address by decoding the repeatable and the non-repeatable comment
and merging them; only the key set matters here (the database module is
not among the analysed sources). -/
def tagKeys (w : World) (ea : Nat) : List String :=
  (keysOf (decode (w.cmts ea true)) ++ keysOf (decode (w.cmts ea false))).dedup

/-- The (address, key) pairs visited by the nested loops over a tail:
every address of the chunk, every tag key at it. -/
def tailPairs (w : World) (l r : Nat) : List (Nat × String) :=
  (w.enumAddrs l r).flatMap (fun ea => (tagKeys w ea).map (fun k => (ea, k)))

/-- func_tail_appended(pfn, tail): with several owners the tags of the
tail are tallied into pfn's contents; with a single owner every tag is
additionally demoted from the globals namespace. -/
def funcTailAppended (pfn l r : Nat) (w : World) : World :=
  let referrers := w.owners l
  if 1 < referrers.length then
    let w1 := if pfn ∈ referrers then w else logE w LEntry.warnOwners
    (tailPairs w1 l r).foldl (fun acc p => cincAt pfn p.1 p.2 acc) w1
  else
    let w1 := if pfn ∈ referrers then w else logE w LEntry.warnOwners
    (tailPairs w1 l r).foldl (fun acc p => cincAt pfn p.1 p.2 (gdec p.1 p.2 acc)) w1

/-- removing_func_tail(pfn, tail): with several owners only pfn's contents
references are dropped; with a single owner every tag is promoted back to
the globals namespace. -/
def removingFuncTail (pfn l r : Nat) (w : World) : World :=
  let referrers := w.owners l
  if 1 < referrers.length then
    let w1 := if pfn ∈ referrers then w else logE w LEntry.warnOwners
    (tailPairs w1 l r).foldl (fun acc p => cdecAt pfn p.1 p.2 acc) w1
  else
    let w1 := if pfn ∈ referrers then w else logE w LEntry.warnOwners
    (tailPairs w1 l r).foldl (fun acc p => ginc p.1 p.2 (cdecAt pfn p.1 p.2 acc)) w1

/-! ## Initial cache build (hooks.py, __process_functions) -/

/-- One tag of one address during the cache build: decrement the stale
globals entry when the address was in the globals snapshot, increment the
function's contents unless the address is already in the function's
contents cache. -/
def pfStep (f : Nat) (gsnap csnap : Nat → Bool) (acc : World) (p : Nat × String) : World :=
  let a1 := if gsnap p.1 then gdec p.1 p.2 acc else acc
  if csnap p.1 then a1 else cincAt f p.1 p.2 a1

/-- The (address, key) pairs visited for one function: every chunk, every
address of the chunk, every tag key at the address. -/
def funcPairs (w : World) (f : Nat) : List (Nat × String) :=
  (w.chunksOf f).flatMap
    (fun c => (w.enumAddrs c.1 c.2).flatMap (fun ea => (tagKeys w ea).map (fun k => (ea, k))))

/-- __process_functions: the globals snapshot is taken once before the
loop, the per-function contents snapshot at the start of each function;
runtime-linked (imported) functions are skipped. -/
def processFunctions (w : World) : World :=
  let gsnap := fun ea => decide (0 < w.gaddr ea)
  w.funcs.foldl
    (fun acc f =>
      if f ∈ w.imports then acc
      else
        let csnap := fun ea => decide (0 < acc.caddr f ea)
        (funcPairs acc f).foldl (pfStep f gsnap csnap) acc) w

/-- The per-function step of __process_functions, named: skip an imported
function, otherwise walk its pairs with the globals snapshot of the
original database and the contents snapshot taken at this function's loop
entry. -/
def pfFun (w : World) (acc : World) (f : Nat) : World :=
  if f ∈ w.imports then acc
  else
    (funcPairs acc f).foldl
      (pfStep f (fun ea => decide (0 < w.gaddr ea))
        (fun ea => decide (0 < acc.caddr f ea))) acc

/-! ## Segment relocation (hooks.py, __relocate_globals and the contents
re-keying of __relocate_function) -/

/-- The low-level altval store of the tagcache netnode: address to count. -/
abbrev AltMap : Type := List (Nat × Nat)

/-- internal.netnode.alt.remove(node, ea). -/
def altRemove (m : AltMap) (ea : Nat) : AltMap :=
  m.filter (fun p => decide (p.1 ≠ ea))

/-- internal.netnode.alt.set(node, ea, count): overwrite semantics. -/
def altSet (m : AltMap) (ea c : Nat) : AltMap :=
  (ea, c) :: altRemove m ea

/-- __relocate_globals(old, new, size, iterable): every relocated global
is removed at its old key and re-inserted at new + (ea - old) with the
same count. -/
def relocGlobals (old new : Nat) (entries : List (Nat × Nat)) (m : AltMap) : AltMap :=
  entries.foldl (fun acc p => altSet (altRemove acc p.1) (new + (p.1 - old)) p.2) m

/-- The range test of the relocation job: is an address inside the moved
segment [base, base+size). -/
def inRb (b size : Nat) (p : Nat × Nat) : Bool :=
  decide (b ≤ p.1 ∧ p.1 < b + size)

/-- The globals of the moved segment, as the relocation job filters them
from globals.iterate(). -/
def entriesIn (m : AltMap) (b size : Nat) : List (Nat × Nat) :=
  m.filter (inRb b size)

/-- segm_moved restricted to its globals half: relocate every global of
the moved segment. -/
def segmMovedGlobals (source destination size : Nat) (m : AltMap) : AltMap :=
  relocGlobals source destination (entriesIn m source size) m

/-- The per-function contents re-keying of __relocate_function: the
address cache of a function blob is rewritten by ea - old + new. -/
def rekeyBlob (old new : Nat) (blob : List (Nat × Nat)) : List (Nat × Nat) :=
  blob.map (fun p => (p.1 - old + new, p.2))

/-- The action of the relocation job on one moved entry: the data moves
from its old key to new + (ea - old) with the same count. -/
def shiftEntry (old new : Nat) (e : Nat × Nat) : Nat × Nat :=
  (new + (e.1 - old), e.2)

/-- The residue of an altval store after a set of keys is removed. -/
def removeKeys (ks : List Nat) (m : AltMap) : AltMap :=
  m.filter (fun p => decide (p.1 ∉ ks))

/-! ## Basic lemmas about the primitives -/

theorem bump_apply {α : Type} [DecidableEq α] (f : α → Nat) (a b : α) :
    bump f a b = if b = a then f a + 1 else f b := by
  simp [bump, Function.update_apply]

theorem drop1_apply {α : Type} [DecidableEq α] (f : α → Nat) (a b : α) :
    drop1 f a b = if b = a then f a - 1 else f b := by
  simp [drop1, Function.update_apply]

/-- Anything built from the four ledger primitives only rewrites the four
ledger fields; this shape transports every other projection. -/
def LedgerOnly (w w' : World) : Prop :=
  ∃ gk ga ck ca, w' = { w with gkeys := gk, gaddr := ga, ckeys := ck, caddr := ca }

theorem ledgerOnly_refl (w : World) : LedgerOnly w w :=
  ⟨w.gkeys, w.gaddr, w.ckeys, w.caddr, rfl⟩

theorem ledgerOnly_trans {w1 w2 w3 : World} (h12 : LedgerOnly w1 w2)
    (h23 : LedgerOnly w2 w3) : LedgerOnly w1 w3 := by
  obtain ⟨gk, ga, ck, ca, rfl⟩ := h12
  obtain ⟨gk', ga', ck', ca', rfl⟩ := h23
  exact ⟨gk', ga', ck', ca', rfl⟩

theorem ledgerOnly_ginc (ea : Nat) (k : String) (w : World) :
    LedgerOnly w (ginc ea k w) :=
  ⟨_, _, _, _, rfl⟩

theorem ledgerOnly_gdec (ea : Nat) (k : String) (w : World) :
    LedgerOnly w (gdec ea k w) :=
  ⟨_, _, _, _, rfl⟩

theorem ledgerOnly_cincAt (own ea : Nat) (k : String) (w : World) :
    LedgerOnly w (cincAt own ea k w) :=
  ⟨_, _, _, _, rfl⟩

theorem ledgerOnly_cdecAt (own ea : Nat) (k : String) (w : World) :
    LedgerOnly w (cdecAt own ea k w) :=
  ⟨_, _, _, _, rfl⟩

theorem ledgerOnly_foldl {β : Type} (step : World → β → World)
    (hstep : ∀ acc x, LedgerOnly acc (step acc x)) :
    ∀ (L : List β) (w : World), LedgerOnly w (L.foldl step w) := by
  intro L
  induction L with
  | nil => intro w; exact ledgerOnly_refl w
  | cons a t ih =>
      intro w
      exact ledgerOnly_trans (hstep w a) (ih (step w a))

theorem LedgerOnly.cmts {w w' : World} (h : LedgerOnly w w') : w'.cmts = w.cmts := by
  obtain ⟨gk, ga, ck, ca, rfl⟩ := h; rfl

theorem LedgerOnly.fcmts {w w' : World} (h : LedgerOnly w w') : w'.fcmts = w.fcmts := by
  obtain ⟨gk, ga, ck, ca, rfl⟩ := h; rfl

theorem LedgerOnly.func {w w' : World} (h : LedgerOnly w w') : w'.func = w.func := by
  obtain ⟨gk, ga, ck, ca, rfl⟩ := h; rfl

theorem LedgerOnly.rtl {w w' : World} (h : LedgerOnly w w') : w'.rtl = w.rtl := by
  obtain ⟨gk, ga, ck, ca, rfl⟩ := h; rfl

theorem LedgerOnly.ident {w w' : World} (h : LedgerOnly w w') : w'.ident = w.ident := by
  obtain ⟨gk, ga, ck, ca, rfl⟩ := h; rfl

theorem LedgerOnly.dbstate {w w' : World} (h : LedgerOnly w w') : w'.dbstate = w.dbstate := by
  obtain ⟨gk, ga, ck, ca, rfl⟩ := h; rfl

theorem LedgerOnly.astates {w w' : World} (h : LedgerOnly w w') : w'.astates = w.astates := by
  obtain ⟨gk, ga, ck, ca, rfl⟩ := h; rfl

theorem LedgerOnly.gstates {w w' : World} (h : LedgerOnly w w') : w'.gstates = w.gstates := by
  obtain ⟨gk, ga, ck, ca, rfl⟩ := h; rfl

theorem LedgerOnly.tstates {w w' : World} (h : LedgerOnly w w') : w'.tstates = w.tstates := by
  obtain ⟨gk, ga, ck, ca, rfl⟩ := h; rfl

theorem LedgerOnly.hooks {w w' : World} (h : LedgerOnly w w') : w'.hooks = w.hooks := by
  obtain ⟨gk, ga, ck, ca, rfl⟩ := h; rfl

theorem LedgerOnly.trace {w w' : World} (h : LedgerOnly w w') : w'.trace = w.trace := by
  obtain ⟨gk, ga, ck, ca, rfl⟩ := h; rfl

theorem LedgerOnly.log {w w' : World} (h : LedgerOnly w w') : w'.log = w.log := by
  obtain ⟨gk, ga, ck, ca, rfl⟩ := h; rfl

theorem LedgerOnly.owners {w w' : World} (h : LedgerOnly w w') : w'.owners = w.owners := by
  obtain ⟨gk, ga, ck, ca, rfl⟩ := h; rfl

theorem LedgerOnly.enumAddrs {w w' : World} (h : LedgerOnly w w') :
    w'.enumAddrs = w.enumAddrs := by
  obtain ⟨gk, ga, ck, ca, rfl⟩ := h; rfl

theorem LedgerOnly.selQ {w w' : World} (h : LedgerOnly w w') : selQ w' = selQ w := by
  funext ea; simp [Minsc.selQ, h.func, h.rtl]

theorem LedgerOnly.ownerOf {w w' : World} (h : LedgerOnly w w') : ownerOf w' = ownerOf w := by
  funext ea; simp [Minsc.ownerOf, h.func]

theorem ledgerOnly_urStep (q : Bool) (own ea : Nat) (oks nks : List String)
    (acc : World) (k : String) : LedgerOnly acc (urStep q own ea oks nks acc k) := by
  unfold urStep
  dsimp only
  repeat' split
  all_goals exact ⟨_, _, _, _, rfl⟩

theorem ledgerOnly_updateRefs (ea : Nat) (o n : List (String × String)) (w : World) :
    LedgerOnly w (updateRefs ea o n w) :=
  ledgerOnly_foldl _ (fun acc x => ledgerOnly_urStep _ _ _ _ _ acc x) _ w

theorem ledgerOnly_createRefs (ea : Nat) (content : List (String × String)) (w : World) :
    LedgerOnly w (createRefs ea content w) := by
  refine ledgerOnly_foldl _ (fun acc x => ?_) _ w
  dsimp only
  split
  · exact ledgerOnly_cincAt _ _ _ acc
  · exact ledgerOnly_ginc _ _ acc

theorem ledgerOnly_deleteRefs (ea : Nat) (content : List (String × String)) (w : World) :
    LedgerOnly w (deleteRefs ea content w) := by
  refine ledgerOnly_foldl _ (fun acc x => ?_) _ w
  dsimp only
  split
  · exact ledgerOnly_cdecAt _ _ _ acc
  · exact ledgerOnly_gdec _ _ acc

/-- A projection that every step of a fold preserves is preserved by the
whole fold. -/
theorem foldl_proj_eq {β γ : Type} (g : World → γ) (step : World → β → World)
    (hstep : ∀ acc x, g (step acc x) = g acc) :
    ∀ (L : List β) (w : World), g (L.foldl step w) = g w := by
  intro L
  induction L with
  | nil => intro w; rfl
  | cons a t ih => intro w; rw [List.foldl_cons, ih, hstep]

/-! ## Pointwise characterization of address._update_refs -/

/-- The per-key effect of one _update_refs iteration on the count of the
key it visits. -/
def urPoint (oks nks : List String) (k : String) (c : Nat) : Nat :=
  if k ∈ nks then (if k ∈ oks then c else c + 1)
  else (if k ∈ oks then c - 1 else c - 1 + 1)

theorem urStep_gkeys_false (own ea : Nat) (oks nks : List String) (acc : World)
    (k k' : String) :
    (urStep false own ea oks nks acc k).gkeys k'
      = if k' = k then urPoint oks nks k (acc.gkeys k) else acc.gkeys k' := by
  by_cases hn : k ∈ nks <;> by_cases ho : k ∈ oks <;> by_cases hk : k' = k <;>
    simp [urStep, urPoint, hn, ho, hk, ginc, gdec, bump_apply, drop1_apply]

theorem urStep_gkeys_true (own ea : Nat) (oks nks : List String) (acc : World)
    (k : String) : (urStep true own ea oks nks acc k).gkeys = acc.gkeys := by
  unfold urStep
  dsimp only
  repeat' split
  all_goals first | rfl | simp_all

theorem urStep_ckeys_false (own ea : Nat) (oks nks : List String) (acc : World)
    (k : String) : (urStep false own ea oks nks acc k).ckeys = acc.ckeys := by
  unfold urStep
  dsimp only
  repeat' split
  all_goals first | rfl | simp_all

theorem urStep_ckeys_true (own ea : Nat) (oks nks : List String) (acc : World)
    (k : String) (f' : Nat) (k' : String) :
    (urStep true own ea oks nks acc k).ckeys f' k'
      = if f' = own ∧ k' = k then urPoint oks nks k (acc.ckeys own k)
        else acc.ckeys f' k' := by
  by_cases hf : f' = own <;> by_cases hn : k ∈ nks <;> by_cases ho : k ∈ oks <;>
      by_cases hk : k' = k <;>
    simp [urStep, urPoint, hn, ho, hk, hf, cincAt, cdecAt, bump_apply, drop1_apply,
      Function.update_apply]

theorem urFold_gkeys_false (own ea : Nat) (oks nks : List String) :
    ∀ (L : List String), L.Nodup → ∀ (w : World) (k : String),
      (L.foldl (urStep false own ea oks nks) w).gkeys k
        = if k ∈ L then urPoint oks nks k (w.gkeys k) else w.gkeys k := by
  intro L
  induction L with
  | nil => intro _ w k; simp
  | cons a t ih =>
      intro hnd w k
      rw [List.foldl_cons, ih (List.nodup_cons.mp hnd).2]
      by_cases hk : k = a
      · subst hk
        rw [if_neg (List.nodup_cons.mp hnd).1, urStep_gkeys_false, if_pos rfl,
          if_pos (List.mem_cons_self k t)]
      · rw [urStep_gkeys_false, if_neg hk]
        by_cases hkt : k ∈ t
        · rw [if_pos hkt, if_pos (List.mem_cons_of_mem _ hkt)]
        · rw [if_neg hkt, if_neg (by simp [List.mem_cons, hk, hkt])]

theorem urFold_ckeys_true (own ea : Nat) (oks nks : List String) :
    ∀ (L : List String), L.Nodup → ∀ (w : World) (f' : Nat) (k : String),
      (L.foldl (urStep true own ea oks nks) w).ckeys f' k
        = if f' = own ∧ k ∈ L then urPoint oks nks k (w.ckeys own k)
          else w.ckeys f' k := by
  intro L
  induction L with
  | nil => intro _ w f' k; simp
  | cons a t ih =>
      intro hnd w f' k
      rw [List.foldl_cons, ih (List.nodup_cons.mp hnd).2]
      by_cases hf : f' = own
      · subst hf
        by_cases hk : k = a
        · subst hk
          rw [if_neg (by simp [(List.nodup_cons.mp hnd).1]), urStep_ckeys_true,
            if_pos ⟨rfl, rfl⟩, if_pos ⟨rfl, List.mem_cons_self k t⟩]
        · by_cases hkt : k ∈ t
          · rw [if_pos ⟨rfl, hkt⟩, if_pos ⟨rfl, List.mem_cons_of_mem _ hkt⟩,
              urStep_ckeys_true, if_neg (by simp [hk])]
          · rw [if_neg (by simp [hkt]), if_neg (by simp [List.mem_cons, hk, hkt]),
              urStep_ckeys_true, if_neg (by simp [hk])]
      · rw [if_neg (by simp [hf]), if_neg (by simp [hf]), urStep_ckeys_true,
          if_neg (by simp [hf])]

theorem urFold_gkeys_true (own ea : Nat) (oks nks : List String) (L : List String)
    (w : World) : (L.foldl (urStep true own ea oks nks) w).gkeys = w.gkeys :=
  foldl_proj_eq World.gkeys _ (fun acc x => urStep_gkeys_true own ea oks nks acc x) L w

theorem urFold_ckeys_false (own ea : Nat) (oks nks : List String) (L : List String)
    (w : World) : (L.foldl (urStep false own ea oks nks) w).ckeys = w.ckeys :=
  foldl_proj_eq World.ckeys _ (fun acc x => urStep_ckeys_false own ea oks nks acc x) L w

theorem mem_symmKeys {o n : List (String × String)} {k : String} :
    k ∈ symmKeys o n
      ↔ (k ∈ keysOf o ∧ k ∉ keysOf n) ∨ (k ∈ keysOf n ∧ k ∉ keysOf o) := by
  simp [symmKeys, List.mem_filter, List.mem_append, List.mem_dedup]

theorem nodup_symmKeys (o n : List (String × String)) : (symmKeys o n).Nodup := by
  refine List.Nodup.append ((List.nodup_dedup _).filter _) ((List.nodup_dedup _).filter _) ?_
  intro a h1 h2
  rw [List.mem_filter] at h1 h2
  have h1' := of_decide_eq_true h1.2
  have h2' := of_decide_eq_true h2.2
  exact h2' (List.mem_dedup.mp h1.1)

/-- The count of a key in the namespace that owns the address. -/
def selKeyCount (w : World) (ea : Nat) (k : String) : Nat :=
  if selQ w ea then w.ckeys (ownerOf w ea) k else w.gkeys k

theorem updateRefs_selCount (w : World) (ea : Nat) (o n : List (String × String))
    (k : String) :
    selKeyCount (updateRefs ea o n w) ea k
      = if k ∈ keysOf n ∧ k ∉ keysOf o then selKeyCount w ea k + 1
        else if k ∈ keysOf o ∧ k ∉ keysOf n then selKeyCount w ea k - 1
        else selKeyCount w ea k := by
  have hlo := ledgerOnly_updateRefs ea o n w
  unfold selKeyCount
  rw [hlo.selQ, hlo.ownerOf]
  unfold updateRefs
  by_cases hq : selQ w ea
  · rw [hq]
    simp only [if_pos trivial, if_true]
    rw [urFold_ckeys_true _ _ _ _ _ (nodup_symmKeys o n)]
    by_cases hn : k ∈ keysOf n <;> by_cases ho : k ∈ keysOf o
    · rw [if_neg, if_neg (by simp [hn, ho]), if_neg (by simp [hn, ho])]
      simp [mem_symmKeys, hn, ho]
    · rw [if_pos ⟨rfl, mem_symmKeys.mpr (Or.inr ⟨hn, ho⟩)⟩, if_pos ⟨hn, ho⟩]
      simp [urPoint, hn, ho]
    · rw [if_pos ⟨rfl, mem_symmKeys.mpr (Or.inl ⟨ho, hn⟩)⟩, if_neg (by simp [hn]),
        if_pos ⟨ho, hn⟩]
      simp [urPoint, hn, ho]
    · rw [if_neg, if_neg (by simp [hn]), if_neg (by simp [ho])]
      simp [mem_symmKeys, hn, ho]
  · rw [if_neg hq, if_neg hq]
    have hq' : selQ w ea = false := by simpa using hq
    rw [hq']
    rw [urFold_gkeys_false _ _ _ _ _ (nodup_symmKeys o n)]
    by_cases hn : k ∈ keysOf n <;> by_cases ho : k ∈ keysOf o
    · rw [if_neg, if_neg (by simp [hn, ho]), if_neg (by simp [hn, ho])]
      simp [mem_symmKeys, hn, ho]
    · rw [if_pos (mem_symmKeys.mpr (Or.inr ⟨hn, ho⟩)), if_pos ⟨hn, ho⟩]
      simp [urPoint, hn, ho]
    · rw [if_pos (mem_symmKeys.mpr (Or.inl ⟨ho, hn⟩)), if_neg (by simp [hn]),
        if_pos ⟨ho, hn⟩]
      simp [urPoint, hn, ho]
    · rw [if_neg, if_neg (by simp [hn]), if_neg (by simp [ho])]
      simp [mem_symmKeys, hn, ho]

/-! ## Concrete worlds for scenarios and witnesses -/

/-- A ready, empty database: no comments, no functions, empty ledger, no
pending states. -/
def w0 : World where
  dbstate := some St.ready
  cmts := fun _ _ => ""
  fcmts := fun _ _ => ""
  func := fun _ => none
  rtl := fun _ => false
  ident := fun _ => false
  inb := fun _ => false
  tinfo := fun _ => ("", "")
  gkeys := fun _ => 0
  gaddr := fun _ => 0
  ckeys := fun _ _ => 0
  caddr := fun _ _ => 0
  hooks := fun _ => 0
  astates := []
  gstates := []
  tstates := []
  funcs := []
  imports := []
  chunksOf := fun _ => []
  enumAddrs := fun _ _ => []
  owners := fun _ => []
  trace := []
  log := []

/-! ## State-dictionary lemmas -/

theorem sfind_sset_self {α : Type} (s : List (Nat × α)) (ea : Nat) (v : α) :
    sfind (sset s ea v) ea = some v := by
  simp [sset, sfind]

theorem sfind_serase_self {α : Type} (s : List (Nat × α)) (ea : Nat) :
    sfind (serase s ea) ea = none := by
  induction s with
  | nil => rfl
  | cons p t ih =>
      by_cases h : p.1 = ea
      · simpa [serase, h] using ih
      · simpa [serase, sfind, h] using ih

theorem serase_sset_self {α : Type} (s : List (Nat × α)) (ea : Nat) (v : α) :
    serase (sset s ea v) ea = serase s ea := by
  simp [sset, serase, List.filter_filter]

theorem countP_serase {α : Type} (s : List (Nat × α)) (ea : Nat) :
    (serase s ea).countP (fun p => decide (p.1 = ea)) = 0 := by
  rw [List.countP_eq_zero]
  intro p hp
  rw [serase, List.mem_filter] at hp
  simpa using hp.2

theorem countP_sset {α : Type} (s : List (Nat × α)) (ea : Nat) (v : α) :
    (sset s ea v).countP (fun p => decide (p.1 = ea)) = 1 := by
  simp [sset, List.countP_cons, countP_serase]

/-- anew only rewrites the state dictionary and the log. -/
theorem anew_shape (ea : Nat) (w : World) :
    ∃ lg, anew ea w = { w with astates := sset w.astates ea APend.primed, log := lg } := by
  unfold anew
  cases h : sfind w.astates ea with
  | none => exact ⟨w.log, rfl⟩
  | some p => cases p <;> exact ⟨_, rfl⟩

/-- The effect of address.changing on the normal path: the pending state
for the address stores the decoded old and new mappings; the comments and
the database view are untouched, the ledger moves by updateRefs. -/
theorem addressChanging_proj (w : World) (ea : Nat) (rpt : Bool) (v : String)
    (hr : isReady w) (hi : w.ident ea = false) :
    ((addressChanging ea rpt v ExcO.norm w).1).astates
        = sset w.astates ea (APend.awaiting rpt v (decode (w.cmts ea rpt)) (decode v))
    ∧ ((addressChanging ea rpt v ExcO.norm w).1).cmts = w.cmts
    ∧ ((addressChanging ea rpt v ExcO.norm w).1).dbstate = w.dbstate
    ∧ ((addressChanging ea rpt v ExcO.norm w).1).ident = w.ident := by
  obtain ⟨lg, hsh⟩ := anew_shape ea (logE w LEntry.debugRecv)
  unfold addressChanging
  rw [if_pos hr, if_neg (by simp [hi])]
  dsimp only
  rw [hsh]
  dsimp only [aPhase1, enableHook, disableHook, logE]
  refine ⟨?_, ?_, ?_, ?_⟩
  · rw [(ledgerOnly_updateRefs _ _ _ _).astates]
    dsimp only
    simp [sset, serase, List.filter_filter]
  · rw [(ledgerOnly_updateRefs _ _ _ _).cmts]
  · rw [(ledgerOnly_updateRefs _ _ _ _).dbstate]
  · rw [(ledgerOnly_updateRefs _ _ _ _).ident]

/-- The effect of address.changed on the normal matched path with a
well-formed new comment: the promised text is written and the state is
closed. -/
theorem addressChanged_proj (w : World) (ea : Nat) (rpt : Bool) (ntext : String)
    (o n : List (String × String)) (hr : isReady w) (hi : w.ident ea = false)
    (hf : sfind w.astates ea = some (APend.awaiting rpt ntext o n))
    (hchk : check ntext = true) :
    ((addressChanged ea rpt ExcO.norm w).1).cmts ea rpt = ntext
    ∧ sfind ((addressChanged ea rpt ExcO.norm w).1).astates ea = none := by
  unfold addressChanged
  rw [if_pos hr, if_neg (by simp [hi])]
  dsimp only
  have hf' : sfind (logE w LEntry.debugRecv).astates ea
      = some (APend.awaiting rpt ntext o n) := hf
  rw [hf']
  dsimp only
  unfold aPhase2
  rw [if_pos ⟨rfl, rfl⟩, hchk, if_pos rfl]
  constructor
  · split <;> simp [enableHook, setCmt, logE]
  · split <;> simp [enableHook, setCmt, logE, sfind_serase_self]

/-- C1: when the changing notification is processed, address._update_refs
compares the key set of the decoded old comment with the key set of the
decoded proposed comment; a key present only in the old set is
decremented in the owning namespace, a key present only in the new set is
incremented, and a key present in both sets leaves the ledger unchanged.
Consequently a changing/changed pair introducing one key at the untagged
non-function address 0x401000 leaves that key's global count at exactly
1. -/
theorem c1_update_refs_diff_and_first_tag :
    (∀ (w : World) (ea : Nat) (o n : List (String × String)) (k : String),
        selKeyCount (updateRefs ea o n w) ea k
          = if k ∈ keysOf n ∧ k ∉ keysOf o then selKeyCount w ea k + 1
            else if k ∈ keysOf o ∧ k ∉ keysOf n then selKeyCount w ea k - 1
            else selKeyCount w ea k)
    ∧ ((addressChanged 4198400 true ExcO.norm
          (addressChanging 4198400 true "key1:value1" ExcO.norm w0).1).1).gkeys "key1"
        = 1 :=
  ⟨fun w ea o n k => updateRefs_selCount w ea o n k, by decide⟩

/-! ## Claim C2 -/

/-- C2: at most one pending correlation state exists per address: new()
forcefully closes a stale pending state (the close itself commits nothing
to the ledger or the comments) before storing the fresh one, so after two
changing notifications the dictionary holds exactly the second pending
edit, and the following changed notification completes only that second
edit (writing its text and clearing the state). -/
theorem c2_single_pending_per_address :
    (∀ (w : World) (ea : Nat),
        (anew ea w).gkeys = w.gkeys ∧ (anew ea w).gaddr = w.gaddr
        ∧ (anew ea w).ckeys = w.ckeys ∧ (anew ea w).caddr = w.caddr
        ∧ (anew ea w).cmts = w.cmts
        ∧ (anew ea w).astates.countP (fun p => decide (p.1 = ea)) = 1)
    ∧ (∀ (w : World) (ea : Nat) (rpt : Bool) (v1 v2 : String),
        isReady w → w.ident ea = false →
        sfind ((addressChanging ea rpt v2 ExcO.norm
              (addressChanging ea rpt v1 ExcO.norm w).1).1).astates ea
            = some (APend.awaiting rpt v2 (decode (w.cmts ea rpt)) (decode v2))
        ∧ ((addressChanging ea rpt v2 ExcO.norm
              (addressChanging ea rpt v1 ExcO.norm w).1).1).astates.countP
              (fun p => decide (p.1 = ea)) = 1
        ∧ (check v2 = true →
            ((addressChanged ea rpt ExcO.norm
                (addressChanging ea rpt v2 ExcO.norm
                  (addressChanging ea rpt v1 ExcO.norm w).1).1).1).cmts ea rpt = v2
            ∧ sfind ((addressChanged ea rpt ExcO.norm
                (addressChanging ea rpt v2 ExcO.norm
                  (addressChanging ea rpt v1 ExcO.norm w).1).1).1).astates ea = none)) := by
  constructor
  · intro w ea
    obtain ⟨lg, h⟩ := anew_shape ea w
    rw [h]
    exact ⟨rfl, rfl, rfl, rfl, rfl, countP_sset _ _ _⟩
  · intro w ea rpt v1 v2 hr hi
    obtain ⟨h1a, h1c, h1d, h1i⟩ := addressChanging_proj w ea rpt v1 hr hi
    have hr1 : isReady ((addressChanging ea rpt v1 ExcO.norm w).1) := by
      unfold isReady; rw [h1d]; exact hr
    have hi1 : ((addressChanging ea rpt v1 ExcO.norm w).1).ident ea = false := by
      rw [h1i]; exact hi
    obtain ⟨h2a, h2c, h2d, h2i⟩ := addressChanging_proj _ ea rpt v2 hr1 hi1
    have hfind : sfind ((addressChanging ea rpt v2 ExcO.norm
        (addressChanging ea rpt v1 ExcO.norm w).1).1).astates ea
        = some (APend.awaiting rpt v2 (decode (w.cmts ea rpt)) (decode v2)) := by
      rw [h2a, h1c]
      exact sfind_sset_self _ _ _
    refine ⟨hfind, ?_, ?_⟩
    · rw [h2a]
      exact countP_sset _ _ _
    · intro hchk
      have hr2 : isReady ((addressChanging ea rpt v2 ExcO.norm
          (addressChanging ea rpt v1 ExcO.norm w).1).1) := by
        unfold isReady; rw [h2d, h1d]; exact hr
      have hi2 : ((addressChanging ea rpt v2 ExcO.norm
          (addressChanging ea rpt v1 ExcO.norm w).1).1).ident ea = false := by
        rw [h2i, h1i]; exact hi
      exact addressChanged_proj _ ea rpt v2 _ _ hr2 hi2 hfind hchk

/-- Witness for C2 at a concrete double edit. -/
theorem c2_single_pending_per_address_witness :
    ((addressChanged 100 true ExcO.norm
        (addressChanging 100 true "b:2" ExcO.norm
          (addressChanging 100 true "a:1" ExcO.norm w0).1).1).1).cmts 100 true = "b:2"
    ∧ sfind ((addressChanged 100 true ExcO.norm
        (addressChanging 100 true "b:2" ExcO.norm
          (addressChanging 100 true "a:1" ExcO.norm w0).1).1).1).astates 100 = none := by
  have h := c2_single_pending_per_address.2 w0 100 true "a:1" "b:2" (by decide) (by decide)
  exact h.2.2 (by decide)

/-! ## Pointwise characterization of _create_refs and _delete_refs -/

theorem gdecFold_gkeys : ∀ (L : List String), L.Nodup → ∀ (ea : Nat) (w : World) (k : String),
    (L.foldl (fun acc k => gdec ea k acc) w).gkeys k
      = w.gkeys k - (if k ∈ L then 1 else 0) := by
  intro L
  induction L with
  | nil => intro _ ea w k; simp
  | cons a t ih =>
      intro hnd ea w k
      rw [List.foldl_cons, ih (List.nodup_cons.mp hnd).2]
      by_cases hk : k = a
      · subst hk
        rw [if_neg (List.nodup_cons.mp hnd).1, if_pos (List.mem_cons_self k t)]
        simp [gdec, drop1_apply]
      · rw [show (gdec ea a w).gkeys k = w.gkeys k by simp [gdec, drop1_apply, hk]]
        by_cases hkt : k ∈ t
        · rw [if_pos hkt, if_pos (List.mem_cons_of_mem _ hkt)]
        · rw [if_neg hkt, if_neg (by simp [List.mem_cons, hk, hkt])]

theorem gincFold_gkeys : ∀ (L : List String), L.Nodup → ∀ (ea : Nat) (w : World) (k : String),
    (L.foldl (fun acc k => ginc ea k acc) w).gkeys k
      = w.gkeys k + (if k ∈ L then 1 else 0) := by
  intro L
  induction L with
  | nil => intro _ ea w k; simp
  | cons a t ih =>
      intro hnd ea w k
      rw [List.foldl_cons, ih (List.nodup_cons.mp hnd).2]
      by_cases hk : k = a
      · subst hk
        rw [if_neg (List.nodup_cons.mp hnd).1, if_pos (List.mem_cons_self k t)]
        simp [ginc, bump_apply]
      · rw [show (ginc ea a w).gkeys k = w.gkeys k by simp [ginc, bump_apply, hk]]
        by_cases hkt : k ∈ t
        · rw [if_pos hkt, if_pos (List.mem_cons_of_mem _ hkt)]
        · rw [if_neg hkt, if_neg (by simp [List.mem_cons, hk, hkt])]

theorem deleteRefs_gkeys (w : World) (ea : Nat) (content : List (String × String))
    (k : String) (hq : selQ w ea = false) :
    (deleteRefs ea content w).gkeys k
      = w.gkeys k - (if k ∈ keysOf content then 1 else 0) := by
  unfold deleteRefs
  simp only [hq, Bool.false_eq_true, if_false]
  rw [gdecFold_gkeys _ (List.nodup_dedup _) ea w k]
  simp [List.mem_dedup]

theorem createRefs_gkeys (w : World) (ea : Nat) (content : List (String × String))
    (k : String) (hq : selQ w ea = false) :
    (createRefs ea content w).gkeys k
      = w.gkeys k + (if k ∈ keysOf content then 1 else 0) := by
  unfold createRefs
  simp only [hq, Bool.false_eq_true, if_false]
  rw [gincFold_gkeys _ (List.nodup_dedup _) ea w k]
  simp [List.mem_dedup]

/-! ## Claim C3 -/

set_option maxHeartbeats 1000000 in
/-- C3 (amended): the out-of-sync branch of address.updater, at a
non-function address: it logs fatal, decrements every key of the old
decoded comment (not the inverse of the pre-applied delta), writes an
empty comment for the promised slot, and then recreates references from
the comment re-read at the slot the changed notification names. -/
theorem c3_out_of_sync_reconciliation (w : World) (ea : Nat) (rpt rpt0 : Bool)
    (ntext : String) (o n : List (String × String)) (hr : isReady w)
    (hi : w.ident ea = false)
    (hf : sfind w.astates ea = some (APend.awaiting rpt0 ntext o n))
    (hne : rpt ≠ rpt0) (hfn : w.func ea = none) :
    (∀ k, ((addressChanged ea rpt ExcO.norm w).1).gkeys k
        = w.gkeys k - (if k ∈ keysOf o then 1 else 0)
            + (if k ∈ keysOf (decode (w.cmts ea rpt)) then 1 else 0))
    ∧ ((addressChanged ea rpt ExcO.norm w).1).cmts ea rpt0 = ""
    ∧ LEntry.fatalOutOfSync ∈ ((addressChanged ea rpt ExcO.norm w).1).log
    ∧ sfind ((addressChanged ea rpt ExcO.norm w).1).astates ea = none := by
  unfold addressChanged
  rw [if_pos hr, if_neg (by simp [hi])]
  dsimp only
  have hf' : sfind (logE w LEntry.debugRecv).astates ea
      = some (APend.awaiting rpt0 ntext o n) := hf
  rw [hf']
  dsimp only
  unfold aPhase2
  rw [if_neg (fun h => hne h.2)]
  dsimp only
  set Wf := logE (disableHook HookName.cmtChanged (disableHook HookName.changingCmt
    (logE w LEntry.debugRecv))) LEntry.fatalOutOfSync with hWf
  have hWffn : Wf.func = w.func := by rw [hWf]; rfl
  have hWfq : selQ Wf ea = false := by
    unfold selQ
    rw [hWffn, hfn]
    rfl
  have hdlo := ledgerOnly_deleteRefs ea o Wf
  set W2 := deleteRefs ea o Wf with hW2
  set W3 := logE (setCmt ea rpt0 "" W2) LEntry.warnDeleted with hW3
  have hW3fn : W3.func = w.func := by
    rw [hW3]
    show W2.func = w.func
    rw [hW2, hdlo.func, hWffn]
  have hW3q : selQ W3 ea = false := by
    unfold selQ
    rw [hW3fn, hfn]
    rfl
  have hW3cm : W3.cmts ea rpt = w.cmts ea rpt := by
    rw [hW3]
    show (if ea = ea ∧ rpt = rpt0 then "" else W2.cmts ea rpt) = w.cmts ea rpt
    rw [if_neg (fun h => hne h.2), hW2, hdlo.cmts, hWf]
    rfl
  have hclo := ledgerOnly_createRefs ea (decode (W3.cmts ea rpt)) W3
  refine ⟨?_, ?_, ?_, ?_⟩
  · intro k
    show (createRefs ea (decode (W3.cmts ea rpt)) W3).gkeys k = _
    rw [createRefs_gkeys _ _ _ _ hW3q, hW3cm]
    have h3g : W3.gkeys = W2.gkeys := by rw [hW3]; rfl
    rw [h3g, hW2, deleteRefs_gkeys _ _ _ _ hWfq]
    rw [show Wf.gkeys = w.gkeys by rw [hWf]; rfl]
  · show (createRefs ea (decode (W3.cmts ea rpt)) W3).cmts ea rpt0 = ""
    rw [hclo.cmts, hW3]
    show (if ea = ea ∧ rpt0 = rpt0 then "" else W2.cmts ea rpt0) = ""
    rw [if_pos ⟨rfl, rfl⟩]
  · show LEntry.fatalOutOfSync ∈ (createRefs ea (decode (W3.cmts ea rpt)) W3).log
    rw [hclo.log, hW3]
    show LEntry.fatalOutOfSync ∈ W2.log ++ [LEntry.warnDeleted]
    rw [hW2, hdlo.log, hWf]
    show LEntry.fatalOutOfSync ∈
      ((w.log ++ [LEntry.debugRecv]) ++ [LEntry.fatalOutOfSync]) ++ [LEntry.warnDeleted]
    simp
  · show sfind (serase (createRefs ea (decode (W3.cmts ea rpt)) W3).astates ea) ea = none
    exact sfind_serase_self _ ea

/-- Witness for C3's amended statement at a concrete mismatched pair. -/
theorem c3_out_of_sync_reconciliation_witness :
    ((addressChanged 100 false ExcO.norm
        (addressChanging 100 true "a:b" ExcO.norm w0).1).1).gkeys "a"
      = ((addressChanging 100 true "a:b" ExcO.norm w0).1).gkeys "a"
          - (if "a" ∈ keysOf ([] : List (String × String)) then 1 else 0)
          + (if "a" ∈ keysOf (decode (((addressChanging 100 true "a:b" ExcO.norm
              w0).1).cmts 100 false)) then 1 else 0) :=
  (c3_out_of_sync_reconciliation ((addressChanging 100 true "a:b" ExcO.norm w0).1)
    100 false true "a:b" [] [("a", "b")]
    (by decide) (by decide) (by decide) (by decide) (by decide)).1 "a"

/-- Modelled from the spec: the reconciliation step exactly as claim C3
words it — undo the ledger updates pre-applied during the changing phase
by applying their inverse (re-increment the keys that were decremented,
re-decrement the keys that were incremented), write an empty comment
value, then rebuild the ledger entries fresh from the re-read comment
text; stated for a non-function (globals) address. -/
def claimedReconcile (ea : Nat) (rpt0 : Bool) (o n : List (String × String))
    (newea : Nat) (nrpt : Bool) (w : World) : World :=
  let winv := (symmKeys o n).foldl
    (fun acc k => if k ∈ keysOf o then ginc ea k acc else gdec ea k acc) w
  let w2 := setCmt ea rpt0 "" winv
  createRefs newea (decode (w2.cmts newea nrpt)) w2

/-- C3 counterexample: for the concrete out-of-order pair at address 100
(changing promised the repeatable slot, changed reports the
non-repeatable one) the code leaves the pre-applied increment in place
(global count of the new key stays 1), while the inverse-then-rebuild
reconciliation the claim describes yields 0. -/
theorem c3_out_of_sync_counterexample :
    ((addressChanged 100 false ExcO.norm
        (addressChanging 100 true "a:b" ExcO.norm w0).1).1).gkeys "a" = 1
    ∧ (claimedReconcile 100 true [] [("a", "b")] 100 false
        (addressChanging 100 true "a:b" ExcO.norm w0).1).gkeys "a" = 0 := by
  exact ⟨by decide, by decide⟩

/-! ## Pointwise characterization of the tail attach/detach folds -/

theorem attFold_gkeys (pfn : Nat) :
    ∀ (L : List (Nat × String)) (w : World) (k : String),
      (L.foldl (fun acc p => cincAt pfn p.1 p.2 (gdec p.1 p.2 acc)) w).gkeys k
        = w.gkeys k - L.countP (fun p => decide (p.2 = k)) := by
  intro L
  induction L with
  | nil => intro w k; simp
  | cons a t ih =>
      intro w k
      rw [List.foldl_cons, ih, List.countP_cons]
      have hstep : (cincAt pfn a.1 a.2 (gdec a.1 a.2 w)).gkeys k
          = w.gkeys k - (if decide (a.2 = k) = true then 1 else 0) := by
        by_cases h : a.2 = k <;> simp [cincAt, gdec, drop1_apply, h] <;>
          exact fun hh => absurd hh.symm h
      rw [hstep, Nat.sub_sub, Nat.add_comm]

theorem attFold_gaddr (pfn : Nat) :
    ∀ (L : List (Nat × String)) (w : World) (x : Nat),
      (L.foldl (fun acc p => cincAt pfn p.1 p.2 (gdec p.1 p.2 acc)) w).gaddr x
        = w.gaddr x - L.countP (fun p => decide (p.1 = x)) := by
  intro L
  induction L with
  | nil => intro w x; simp
  | cons a t ih =>
      intro w x
      rw [List.foldl_cons, ih, List.countP_cons]
      have hstep : (cincAt pfn a.1 a.2 (gdec a.1 a.2 w)).gaddr x
          = w.gaddr x - (if decide (a.1 = x) = true then 1 else 0) := by
        by_cases h : a.1 = x <;> simp [cincAt, gdec, drop1_apply, h] <;>
          exact fun hh => absurd hh.symm h
      rw [hstep, Nat.sub_sub, Nat.add_comm]

theorem attFold_ckeys (pfn : Nat) :
    ∀ (L : List (Nat × String)) (w : World) (f' : Nat) (k : String),
      (L.foldl (fun acc p => cincAt pfn p.1 p.2 (gdec p.1 p.2 acc)) w).ckeys f' k
        = w.ckeys f' k
            + (if f' = pfn then L.countP (fun p => decide (p.2 = k)) else 0) := by
  intro L
  induction L with
  | nil => intro w f' k; simp
  | cons a t ih =>
      intro w f' k
      rw [List.foldl_cons, ih, List.countP_cons]
      have hstep : (cincAt pfn a.1 a.2 (gdec a.1 a.2 w)).ckeys f' k
          = w.ckeys f' k
              + (if f' = pfn then (if decide (a.2 = k) = true then 1 else 0) else 0) := by
        by_cases hf : f' = pfn <;> by_cases h : a.2 = k <;>
          simp [cincAt, gdec, bump_apply, Function.update_apply, hf, h] <;>
          exact fun hh => absurd hh.symm h
      rw [hstep]
      by_cases hf : f' = pfn
      · rw [if_pos hf, if_pos hf, if_pos hf, Nat.add_assoc, Nat.add_comm
          (if decide (a.2 = k) = true then 1 else 0)]
      · simp [hf]

theorem attFold_caddr (pfn : Nat) :
    ∀ (L : List (Nat × String)) (w : World) (f' x : Nat),
      (L.foldl (fun acc p => cincAt pfn p.1 p.2 (gdec p.1 p.2 acc)) w).caddr f' x
        = w.caddr f' x
            + (if f' = pfn then L.countP (fun p => decide (p.1 = x)) else 0) := by
  intro L
  induction L with
  | nil => intro w f' x; simp
  | cons a t ih =>
      intro w f' x
      rw [List.foldl_cons, ih, List.countP_cons]
      have hstep : (cincAt pfn a.1 a.2 (gdec a.1 a.2 w)).caddr f' x
          = w.caddr f' x
              + (if f' = pfn then (if decide (a.1 = x) = true then 1 else 0) else 0) := by
        by_cases hf : f' = pfn <;> by_cases h : a.1 = x <;>
          simp [cincAt, gdec, bump_apply, Function.update_apply, hf, h] <;>
          exact fun hh => absurd hh.symm h
      rw [hstep]
      by_cases hf : f' = pfn
      · rw [if_pos hf, if_pos hf, if_pos hf, Nat.add_assoc, Nat.add_comm
          (if decide (a.1 = x) = true then 1 else 0)]
      · simp [hf]

theorem detFold_gkeys (pfn : Nat) :
    ∀ (L : List (Nat × String)) (w : World) (k : String),
      (L.foldl (fun acc p => ginc p.1 p.2 (cdecAt pfn p.1 p.2 acc)) w).gkeys k
        = w.gkeys k + L.countP (fun p => decide (p.2 = k)) := by
  intro L
  induction L with
  | nil => intro w k; simp
  | cons a t ih =>
      intro w k
      rw [List.foldl_cons, ih, List.countP_cons]
      have hstep : (ginc a.1 a.2 (cdecAt pfn a.1 a.2 w)).gkeys k
          = w.gkeys k + (if decide (a.2 = k) = true then 1 else 0) := by
        by_cases h : a.2 = k <;> simp [ginc, cdecAt, bump_apply, h] <;>
          exact fun hh => absurd hh.symm h
      rw [hstep, Nat.add_assoc, Nat.add_comm (if decide (a.2 = k) = true then 1 else 0)]

theorem detFold_gaddr (pfn : Nat) :
    ∀ (L : List (Nat × String)) (w : World) (x : Nat),
      (L.foldl (fun acc p => ginc p.1 p.2 (cdecAt pfn p.1 p.2 acc)) w).gaddr x
        = w.gaddr x + L.countP (fun p => decide (p.1 = x)) := by
  intro L
  induction L with
  | nil => intro w x; simp
  | cons a t ih =>
      intro w x
      rw [List.foldl_cons, ih, List.countP_cons]
      have hstep : (ginc a.1 a.2 (cdecAt pfn a.1 a.2 w)).gaddr x
          = w.gaddr x + (if decide (a.1 = x) = true then 1 else 0) := by
        by_cases h : a.1 = x <;> simp [ginc, cdecAt, bump_apply, h] <;>
          exact fun hh => absurd hh.symm h
      rw [hstep, Nat.add_assoc, Nat.add_comm (if decide (a.1 = x) = true then 1 else 0)]

theorem detFold_ckeys (pfn : Nat) :
    ∀ (L : List (Nat × String)) (w : World) (f' : Nat) (k : String),
      (L.foldl (fun acc p => ginc p.1 p.2 (cdecAt pfn p.1 p.2 acc)) w).ckeys f' k
        = w.ckeys f' k
            - (if f' = pfn then L.countP (fun p => decide (p.2 = k)) else 0) := by
  intro L
  induction L with
  | nil => intro w f' k; simp
  | cons a t ih =>
      intro w f' k
      rw [List.foldl_cons, ih, List.countP_cons]
      have hstep : (ginc a.1 a.2 (cdecAt pfn a.1 a.2 w)).ckeys f' k
          = w.ckeys f' k
              - (if f' = pfn then (if decide (a.2 = k) = true then 1 else 0) else 0) := by
        by_cases hf : f' = pfn <;> by_cases h : a.2 = k <;>
          simp [ginc, cdecAt, drop1_apply, Function.update_apply, hf, h] <;>
          exact fun hh => absurd hh.symm h
      rw [hstep]
      by_cases hf : f' = pfn
      · rw [if_pos hf, if_pos hf, if_pos hf, Nat.sub_sub, Nat.add_comm
          (if decide (a.2 = k) = true then 1 else 0)]
      · simp [hf]

theorem detFold_caddr (pfn : Nat) :
    ∀ (L : List (Nat × String)) (w : World) (f' x : Nat),
      (L.foldl (fun acc p => ginc p.1 p.2 (cdecAt pfn p.1 p.2 acc)) w).caddr f' x
        = w.caddr f' x
            - (if f' = pfn then L.countP (fun p => decide (p.1 = x)) else 0) := by
  intro L
  induction L with
  | nil => intro w f' x; simp
  | cons a t ih =>
      intro w f' x
      rw [List.foldl_cons, ih, List.countP_cons]
      have hstep : (ginc a.1 a.2 (cdecAt pfn a.1 a.2 w)).caddr f' x
          = w.caddr f' x
              - (if f' = pfn then (if decide (a.1 = x) = true then 1 else 0) else 0) := by
        by_cases hf : f' = pfn <;> by_cases h : a.1 = x <;>
          simp [ginc, cdecAt, drop1_apply, Function.update_apply, hf, h] <;>
          exact fun hh => absurd hh.symm h
      rw [hstep]
      by_cases hf : f' = pfn
      · rw [if_pos hf, if_pos hf, if_pos hf, Nat.sub_sub, Nat.add_comm
          (if decide (a.1 = x) = true then 1 else 0)]
      · simp [hf]

theorem ledgerOnly_attFold (pfn : Nat) (L : List (Nat × String)) (w : World) :
    LedgerOnly w (L.foldl (fun acc p => cincAt pfn p.1 p.2 (gdec p.1 p.2 acc)) w) :=
  ledgerOnly_foldl _ (fun acc x => ⟨_, _, _, _, rfl⟩) L w

theorem ledgerOnly_detFold (pfn : Nat) (L : List (Nat × String)) (w : World) :
    LedgerOnly w (L.foldl (fun acc p => ginc p.1 p.2 (cdecAt pfn p.1 p.2 acc)) w) :=
  ledgerOnly_foldl _ (fun acc x => ⟨_, _, _, _, rfl⟩) L w

theorem tailPairs_congr {w w' : World} (l r : Nat) (h1 : w'.cmts = w.cmts)
    (h2 : w'.enumAddrs = w.enumAddrs) : tailPairs w' l r = tailPairs w l r := by
  unfold tailPairs tagKeys
  rw [h1, h2]

/-! ## Claim C4 -/

/-- C4: for a tail with exactly one owning function, the attach handler
(which demotes every tag of every tail address from globals into the
owner's contents) followed immediately by the detach handler on the same
tail restores the reference-count ledger exactly: all four ledger indexes
(global per-key and per-address, per-function per-key and per-address)
equal their pre-attach values.  The hypotheses on the counts are the
documented ledger invariant of §3: the globals side actually carries the
tags found on the tail. -/
theorem c4_tail_attach_detach_roundtrip (w : World) (pfn l r : Nat)
    (hown : w.owners l = [pfn])
    (hkey : ∀ p ∈ tailPairs w l r,
        (tailPairs w l r).countP (fun q => decide (q.2 = p.2)) ≤ w.gkeys p.2)
    (haddr : ∀ p ∈ tailPairs w l r,
        (tailPairs w l r).countP (fun q => decide (q.1 = p.1)) ≤ w.gaddr p.1) :
    (removingFuncTail pfn l r (funcTailAppended pfn l r w)).gkeys = w.gkeys
    ∧ (removingFuncTail pfn l r (funcTailAppended pfn l r w)).gaddr = w.gaddr
    ∧ (removingFuncTail pfn l r (funcTailAppended pfn l r w)).ckeys = w.ckeys
    ∧ (removingFuncTail pfn l r (funcTailAppended pfn l r w)).caddr = w.caddr := by
  have hA : funcTailAppended pfn l r w
      = (tailPairs w l r).foldl
          (fun acc p => cincAt pfn p.1 p.2 (gdec p.1 p.2 acc)) w := by
    unfold funcTailAppended
    rw [hown]
    simp
  have hAlo : LedgerOnly w (funcTailAppended pfn l r w) := by
    rw [hA]
    exact ledgerOnly_attFold _ _ _
  have howA : (funcTailAppended pfn l r w).owners l = [pfn] := by
    rw [hAlo.owners, hown]
  have hpairsA : tailPairs (funcTailAppended pfn l r w) l r = tailPairs w l r :=
    tailPairs_congr l r hAlo.cmts hAlo.enumAddrs
  have hB : removingFuncTail pfn l r (funcTailAppended pfn l r w)
      = (tailPairs w l r).foldl
          (fun acc p => ginc p.1 p.2 (cdecAt pfn p.1 p.2 acc))
          (funcTailAppended pfn l r w) := by
    unfold removingFuncTail
    rw [howA]
    simp [hpairsA]
  rw [hB, hA]
  refine ⟨?_, ?_, ?_, ?_⟩
  · funext k
    rw [detFold_gkeys, attFold_gkeys]
    by_cases hk : ∃ p ∈ tailPairs w l r, p.2 = k
    · obtain ⟨p, hp, hpk⟩ := hk
      have h := hkey p hp
      rw [hpk] at h
      exact Nat.sub_add_cancel h
    · have hz : (tailPairs w l r).countP (fun q => decide (q.2 = k)) = 0 := by
        rw [List.countP_eq_zero]
        intro q hq
        simp only [decide_eq_true_eq]
        exact fun hqk => hk ⟨q, hq, hqk⟩
      rw [hz]
      simp

  · funext x
    rw [detFold_gaddr, attFold_gaddr]
    by_cases hk : ∃ p ∈ tailPairs w l r, p.1 = x
    · obtain ⟨p, hp, hpk⟩ := hk
      have h := haddr p hp
      rw [hpk] at h
      exact Nat.sub_add_cancel h
    · have hz : (tailPairs w l r).countP (fun q => decide (q.1 = x)) = 0 := by
        rw [List.countP_eq_zero]
        intro q hq
        simp only [decide_eq_true_eq]
        exact fun hqk => hk ⟨q, hq, hqk⟩
      rw [hz]
      simp
  · funext f' k
    rw [detFold_ckeys, attFold_ckeys, Nat.add_sub_cancel]
  · funext f' x
    rw [detFold_caddr, attFold_caddr, Nat.add_sub_cancel]

/-- Single-owner tail world for the C4 witness: one tail address 200 with
one tag, owned by function 100, consistently counted in globals. -/
def cw4 : World :=
  { w0 with
    cmts := fun a _ => if a = 200 then "t:v" else "",
    gkeys := fun k => if k = "t" then 1 else 0,
    gaddr := fun a => if a = 200 then 1 else 0,
    enumAddrs := fun a b => if a = 200 ∧ b = 208 then [200] else [],
    owners := fun a => if a = 200 then [100] else [] }

/-- Witness for C4 at the concrete single-owner tail. -/
theorem c4_tail_attach_detach_roundtrip_witness :
    (removingFuncTail 100 200 208 (funcTailAppended 100 200 208 cw4)).gkeys = cw4.gkeys
    ∧ (removingFuncTail 100 200 208 (funcTailAppended 100 200 208 cw4)).ckeys
        = cw4.ckeys := by
  have h := c4_tail_attach_detach_roundtrip cw4 100 200 208
    (by decide) (by decide) (by decide)
  exact ⟨h.1, h.2.2.1⟩


/-! ## Claim C10 -/

/-- C10: every changing and changed handler of the three correlators is a
no-op unless the database lifecycle state is ready: it returns the
unchanged world with exactly one debug log entry appended, creating no
correlation state and performing no ledger or comment mutation. -/
theorem c10_handlers_noop_unless_ready (w : World) (h : w.dbstate ≠ some St.ready) :
    ∀ (ea aStart : Nat) (rpt : Bool) (v cmt ty fn : String) (exc : ExcO),
      addressChanging ea rpt v exc w = (logE w LEntry.debugNotReady, none)
      ∧ addressChanged ea rpt exc w = (logE w LEntry.debugNotReady, none)
      ∧ addressOldChanged ea rpt exc w = (logE w LEntry.debugNotReady, none)
      ∧ globalsChanging aStart cmt rpt exc w = (logE w LEntry.debugNotReady, none)
      ∧ globalsChanged aStart cmt rpt exc w = (logE w LEntry.debugNotReady, none)
      ∧ typeinfoChanging ea ty fn exc w = (logE w LEntry.debugNotReady, none)
      ∧ typeinfoChanged ea ty fn exc w = (logE w LEntry.debugNotReady, none) := by
  intro ea aStart rpt v cmt ty fn exc
  have hnr : ¬ isReady w := h
  refine ⟨?_, ?_, ?_, ?_, ?_, ?_, ?_⟩
  · unfold addressChanging
    rw [if_neg hnr]
  · unfold addressChanged
    rw [if_neg hnr]
  · unfold addressOldChanged
    rw [if_neg hnr]
  · unfold globalsChanging
    rw [if_neg hnr]
  · unfold globalsChanged
    rw [if_neg hnr]
  · unfold typeinfoChanging
    rw [if_neg hnr]
  · unfold typeinfoChanged
    rw [if_neg hnr]

/-- Witness for C10 on a loaded-but-not-ready database. -/
theorem c10_handlers_noop_unless_ready_witness :
    addressChanging 1 true "x:y" ExcO.norm { w0 with dbstate := some St.loaded }
      = (logE { w0 with dbstate := some St.loaded } LEntry.debugNotReady, none)
    ∧ typeinfoChanged 1 "t" "f" ExcO.norm { w0 with dbstate := some St.loaded }
      = (logE { w0 with dbstate := some St.loaded } LEntry.debugNotReady, none) := by
  have h := c10_handlers_noop_unless_ready { w0 with dbstate := some St.loaded }
    (by decide) 1 1 true "x:y" "" "t" "f" ExcO.norm
  exact ⟨h.1, h.2.2.2.2.2.2⟩

/-! ## Claim C9 -/

/-- changingchanged.resume for the comment correlator: the still-pending
handle, or an AddressNotFound failure when none exists. -/
def aresume (s : List (Nat × APend)) (ea : Nat) : Except Unit APend :=
  match sfind s ea with
  | some p => Except.ok p
  | none => Except.error ()

/-- Modelled from the spec: the hook dispatcher (the ui module is not
among the analysed sources) invokes the changed handler and, per §7,
reports an escaping protocol-violation failure at fatal severity without
letting it crash the host. -/
def dispatchChanged (ea : Nat) (rpt : Bool) (w : World) : World :=
  match addressChanged ea rpt ExcO.norm w with
  | (wr, none) => wr
  | (wr, some _) => logE wr LEntry.fatalNoState

/-- C9: resume returns the still-pending handle exactly when one exists
and fails with AddressNotFound exactly when none does; a changed without
a matching changing therefore reaches the dispatcher as a failure, which
is reported at fatal severity and never propagated as a crash (the
dispatcher is total and returns the world with only logs added). -/
theorem c9_resume_and_protocol_violation :
    (∀ (s : List (Nat × APend)) (ea : Nat) (p : APend),
        aresume s ea = Except.ok p ↔ sfind s ea = some p)
    ∧ (∀ (s : List (Nat × APend)) (ea : Nat),
        aresume s ea = Except.error () ↔ sfind s ea = none)
    ∧ (∀ (w : World) (ea : Nat) (rpt : Bool),
        isReady w → w.ident ea = false → sfind w.astates ea = none →
        dispatchChanged ea rpt w
          = logE (logE w LEntry.debugRecv) LEntry.fatalNoState) := by
  refine ⟨?_, ?_, ?_⟩
  · intro s ea p
    unfold aresume
    cases h : sfind s ea <;> simp
  · intro s ea
    unfold aresume
    cases h : sfind s ea <;> simp
  · intro w ea rpt hr hi hf
    unfold dispatchChanged addressChanged
    rw [if_pos hr, if_neg (by simp [hi])]
    dsimp only
    have hf' : sfind (logE w LEntry.debugRecv).astates ea = none := hf
    rw [hf']

/-- Witness for C9's dispatcher conjunct on the empty state table. -/
theorem c9_resume_and_protocol_violation_witness :
    dispatchChanged 100 true w0 = logE (logE w0 LEntry.debugRecv) LEntry.fatalNoState :=
  c9_resume_and_protocol_violation.2.2 w0 100 true (by decide) (by decide) (by decide)

/-! ## Claim C8 -/

/-- Walk a trace keeping the disable depth of every hook name; a write
event is in-bracket when every watched name has positive depth. -/
def wbGo (names : List HookName) (depth : HookName → Nat) : List Ev → Bool
  | [] => true
  | Ev.disable n :: t => wbGo names (bump depth n) t
  | Ev.enable n :: t => wbGo names (drop1 depth n) t
  | Ev.write :: t => names.all (fun n => decide (0 < depth n)) && wbGo names depth t

/-- Every write event of the trace occurs while every one of the watched
hooks is disabled. -/
def writesBracketed (names : List HookName) (tr : List Ev) : Bool :=
  wbGo names (fun _ => 0) tr

theorem bracket2_hooks (h : HookName → Nat) (a b : HookName) :
    drop1 (drop1 (bump (bump h a) b) a) b = h := by
  funext n
  by_cases hab : a = b
  · subst hab
    by_cases hna : n = a <;>
        simp [bump, drop1, Function.update_apply, hna] <;>
      omega
  · by_cases hna : n = a <;> by_cases hnb : n = b <;>
        simp [bump, drop1, Function.update_apply, hna, hnb, hab, Ne.symm hab] <;>
      omega

theorem bracket1_hooks (h : HookName → Nat) (a : HookName) :
    drop1 (bump h a) a = h := by
  funext n
  by_cases hna : n = a <;> simp [bump, drop1, Function.update_apply, hna]

theorem aPhase2_hooks (ea : Nat) (rpt0 : Bool) (ntext : String)
    (o n : List (String × String)) (newea : Nat) (nrpt : Bool) (w : World) :
    (aPhase2 ea rpt0 ntext o n newea nrpt w).hooks = w.hooks := by
  unfold aPhase2
  repeat' split
  all_goals first
    | rfl
    | exact (ledgerOnly_deleteRefs _ _ _).hooks
    | (rw [(ledgerOnly_createRefs _ _ _).hooks]
       exact (ledgerOnly_deleteRefs _ _ _).hooks)

theorem aPhase2_trace (ea : Nat) (rpt0 : Bool) (ntext : String)
    (o n : List (String × String)) (newea : Nat) (nrpt : Bool) (w : World) :
    (aPhase2 ea rpt0 ntext o n newea nrpt w).trace = w.trace
    ∨ (aPhase2 ea rpt0 ntext o n newea nrpt w).trace = w.trace ++ [Ev.write] := by
  unfold aPhase2
  repeat' split
  all_goals first
    | exact Or.inl rfl
    | exact Or.inr rfl
    | exact Or.inl (ledgerOnly_deleteRefs _ _ _).trace
    | (right
       rw [(ledgerOnly_createRefs _ _ _).trace]
       exact congrArg (fun t => t ++ [Ev.write]) (ledgerOnly_deleteRefs _ _ _).trace)

theorem c6_changing_bracket (w : World) (ea : Nat) (rpt : Bool) (v : String)
    (exc : ExcO) :
    (addressChanging ea rpt v exc w).1.hooks = w.hooks
    ∧ writesBracketed [HookName.changingCmt, HookName.cmtChanged]
        ((addressChanging ea rpt v exc w).1.trace.drop w.trace.length) = true := by
  unfold addressChanging
  split
  · split
    · exact ⟨rfl, by rw [show (logE w LEntry.debugIdent).trace = w.trace from rfl,
        List.drop_length]; rfl⟩
    · obtain ⟨lg, hsh⟩ := anew_shape ea (logE w LEntry.debugRecv)
      dsimp only
      rw [hsh]
      cases exc
      · dsimp only [aPhase1, enableHook, disableHook, logE]
        constructor
        · rw [(ledgerOnly_updateRefs _ _ _ _).hooks]
          exact bracket2_hooks w.hooks HookName.changingCmt HookName.cmtChanged
        · rw [(ledgerOnly_updateRefs _ _ _ _).trace]
          dsimp only
          simp only [List.append_assoc]
          rw [List.drop_left]
          decide
      · dsimp only [enableHook, disableHook, logE]
        constructor
        · exact bracket2_hooks w.hooks HookName.changingCmt HookName.cmtChanged
        · simp only [List.append_assoc]
          rw [List.drop_left]
          decide
      · dsimp only [enableHook, disableHook, logE]
        constructor
        · exact bracket2_hooks w.hooks HookName.changingCmt HookName.cmtChanged
        · simp only [List.append_assoc]
          rw [List.drop_left]
          decide
  · exact ⟨rfl, by rw [show (logE w LEntry.debugNotReady).trace = w.trace from rfl,
      List.drop_length]; rfl⟩

theorem c6_changed_bracket (w : World) (ea : Nat) (rpt : Bool) (exc : ExcO) :
    (addressChanged ea rpt exc w).1.hooks = w.hooks
    ∧ writesBracketed [HookName.changingCmt, HookName.cmtChanged]
        ((addressChanged ea rpt exc w).1.trace.drop w.trace.length) = true := by
  unfold addressChanged
  split
  · split
    · exact ⟨rfl, by rw [show (logE w LEntry.debugIdent).trace = w.trace from rfl,
        List.drop_length]; rfl⟩
    · dsimp only
      cases hst : sfind (logE w LEntry.debugRecv).astates ea
      · exact ⟨rfl, by rw [show (logE w LEntry.debugRecv).trace = w.trace from rfl,
          List.drop_length]; rfl⟩
      · rename_i st
        cases exc
        · cases st
          · dsimp only [aPhase1, enableHook, disableHook, logE]
            constructor
            · rw [(ledgerOnly_updateRefs _ _ _ _).hooks]
              exact bracket2_hooks w.hooks HookName.changingCmt HookName.cmtChanged
            · rw [(ledgerOnly_updateRefs _ _ _ _).trace]
              dsimp only
              simp only [List.append_assoc]
              rw [List.drop_left]
              decide
          · rename_i rpt0 ntext o n
            dsimp only [enableHook]
            constructor
            · show drop1 (drop1 (aPhase2 ea rpt0 ntext o n ea rpt
                  (disableHook HookName.cmtChanged (disableHook HookName.changingCmt
                    (logE w LEntry.debugRecv)))).hooks
                  HookName.changingCmt) HookName.cmtChanged = w.hooks
              rw [aPhase2_hooks]
              dsimp only [disableHook, logE]
              exact bracket2_hooks w.hooks HookName.changingCmt HookName.cmtChanged
            · rcases aPhase2_trace ea rpt0 ntext o n ea rpt
                (disableHook HookName.cmtChanged (disableHook HookName.changingCmt
                  (logE w LEntry.debugRecv))) with h | h
              · show writesBracketed _ (List.drop w.trace.length
                    ((aPhase2 _ _ _ _ _ _ _ _).trace
                      ++ [Ev.enable HookName.changingCmt]
                      ++ [Ev.enable HookName.cmtChanged])) = true
                rw [h]
                dsimp only [disableHook, logE]
                simp only [List.append_assoc]
                rw [List.drop_left]
                decide
              · show writesBracketed _ (List.drop w.trace.length
                    ((aPhase2 _ _ _ _ _ _ _ _).trace
                      ++ [Ev.enable HookName.changingCmt]
                      ++ [Ev.enable HookName.cmtChanged])) = true
                rw [h]
                dsimp only [disableHook, logE]
                simp only [List.append_assoc]
                rw [List.drop_left]
                decide
        · dsimp only [enableHook, disableHook, logE]
          refine ⟨bracket2_hooks w.hooks _ _, ?_⟩
          simp only [List.append_assoc]
          rw [List.drop_left]
          decide
        · dsimp only [enableHook, disableHook, logE]
          refine ⟨bracket2_hooks w.hooks _ _, ?_⟩
          simp only [List.append_assoc]
          rw [List.drop_left]
          decide
  · exact ⟨rfl, by rw [show (logE w LEntry.debugNotReady).trace = w.trace from rfl,
      List.drop_length]; rfl⟩

theorem c6_old_changed_bracket (w : World) (ea : Nat) (rpt : Bool) (exc : ExcO) :
    (addressOldChanged ea rpt exc w).1.hooks = w.hooks
    ∧ writesBracketed [HookName.cmtChanged]
        ((addressOldChanged ea rpt exc w).1.trace.drop w.trace.length) = true := by
  unfold addressOldChanged
  split
  · split
    · exact ⟨rfl, by rw [show (logE w LEntry.debugIdent).trace = w.trace from rfl,
        List.drop_length]; rfl⟩
    · dsimp only
      cases exc
      all_goals repeat' split
      all_goals first
        | (refine ⟨rfl, ?_⟩
           show writesBracketed _ (List.drop w.trace.length w.trace) = true
           rw [List.drop_length]
           decide)
        | (dsimp only [enableHook, disableHook, logE, setCmt]
           constructor
           · rw [(ledgerOnly_createRefs _ _ _).hooks]
             exact bracket1_hooks w.hooks HookName.cmtChanged
           · rw [(ledgerOnly_createRefs _ _ _).trace]
             dsimp only
             simp only [List.append_assoc]
             rw [List.drop_left]
             decide)
        | simp_all
  · exact ⟨rfl, by rw [show (logE w LEntry.debugNotReady).trace = w.trace from rfl,
      List.drop_length]; rfl⟩

/-- C6: every comment write of the changing, changed and old_changed
handlers is performed inside a disable/enable bracket of the hooks the
handler guards against (the changing_cmt/cmt_changed pair for the
two-phase handlers, cmt_changed for the single-event handler), and on
every exit path - normal, StopIteration caught, or an exception raised by
the submission or the write - the hook disable depths end exactly as they
started. -/
theorem c6_write_bracket_all_paths :
    ∀ (w : World) (ea : Nat) (rpt : Bool) (v : String) (exc : ExcO),
      ((addressChanging ea rpt v exc w).1.hooks = w.hooks
        ∧ writesBracketed [HookName.changingCmt, HookName.cmtChanged]
            ((addressChanging ea rpt v exc w).1.trace.drop w.trace.length) = true)
      ∧ ((addressChanged ea rpt exc w).1.hooks = w.hooks
        ∧ writesBracketed [HookName.changingCmt, HookName.cmtChanged]
            ((addressChanged ea rpt exc w).1.trace.drop w.trace.length) = true)
      ∧ ((addressOldChanged ea rpt exc w).1.hooks = w.hooks
        ∧ writesBracketed [HookName.cmtChanged]
            ((addressOldChanged ea rpt exc w).1.trace.drop w.trace.length) = true) :=
  fun w ea rpt v exc =>
    ⟨c6_changing_bracket w ea rpt v exc, c6_changed_bracket w ea rpt exc,
      c6_old_changed_bracket w ea rpt exc⟩

/-! ## Claim C7: the initial cache build -/

theorem pfStep_ckeys (f : Nat) (gsnap csnap : Nat → Bool) (w : World)
    (a : Nat × String) (f' : Nat) (k : String) :
    (pfStep f gsnap csnap w a).ckeys f' k
      = w.ckeys f' k
          + (if f' = f then (if decide (a.2 = k) && !csnap a.1 then 1 else 0) else 0) := by
  by_cases hc : csnap a.1 <;> by_cases hg : gsnap a.1 <;> by_cases hf : f' = f <;>
      by_cases hk : a.2 = k <;>
      simp [pfStep, gdec, cincAt, bump_apply, drop1_apply, Function.update_apply,
        hc, hg, hf, hk] <;>
    exact fun hh => absurd hh.symm hk

theorem pfStep_gkeys (f : Nat) (gsnap csnap : Nat → Bool) (w : World)
    (a : Nat × String) (k : String) :
    (pfStep f gsnap csnap w a).gkeys k
      = w.gkeys k - (if decide (a.2 = k) && gsnap a.1 then 1 else 0) := by
  by_cases hc : csnap a.1 <;> by_cases hg : gsnap a.1 <;> by_cases hk : a.2 = k <;>
      simp [pfStep, gdec, cincAt, bump_apply, drop1_apply, Function.update_apply,
        hc, hg, hk] <;>
    exact fun hh => absurd hh.symm hk

theorem pfFold_ckeys (f : Nat) (gsnap csnap : Nat → Bool) :
    ∀ (L : List (Nat × String)) (w : World) (f' : Nat) (k : String),
      (L.foldl (pfStep f gsnap csnap) w).ckeys f' k
        = w.ckeys f' k
            + (if f' = f then L.countP (fun p => decide (p.2 = k) && !csnap p.1)
               else 0) := by
  intro L
  induction L with
  | nil => intro w f' k; simp
  | cons a t ih =>
      intro w f' k
      rw [List.foldl_cons, ih, List.countP_cons, pfStep_ckeys]
      by_cases hf : f' = f
      · rw [if_pos hf, if_pos hf, if_pos hf, Nat.add_assoc,
          Nat.add_comm (if decide (a.2 = k) && !csnap a.1 then 1 else 0)]
      · simp [hf]

theorem pfFold_gkeys (f : Nat) (gsnap csnap : Nat → Bool) :
    ∀ (L : List (Nat × String)) (w : World) (k : String),
      (L.foldl (pfStep f gsnap csnap) w).gkeys k
        = w.gkeys k - L.countP (fun p => decide (p.2 = k) && gsnap p.1) := by
  intro L
  induction L with
  | nil => intro w k; simp
  | cons a t ih =>
      intro w k
      rw [List.foldl_cons, ih, List.countP_cons, pfStep_gkeys, Nat.sub_sub,
        Nat.add_comm]


theorem ledgerOnly_pfStep (f : Nat) (gsnap csnap : Nat → Bool) (acc : World)
    (p : Nat × String) : LedgerOnly acc (pfStep f gsnap csnap acc p) := by
  unfold pfStep
  dsimp only
  repeat' split
  all_goals exact ⟨_, _, _, _, rfl⟩

theorem ledgerOnly_pfFun (w acc : World) (f : Nat) : LedgerOnly acc (pfFun w acc f) := by
  unfold pfFun
  split
  · exact ledgerOnly_refl acc
  · exact ledgerOnly_foldl _ (fun a x => ledgerOnly_pfStep f _ _ a x) _ acc

/-- The visited pairs of a function depend only on the database view, so
any ledger-only evolution preserves them. -/
theorem LedgerOnly.funcPairs_eq {u v : World} (h : LedgerOnly u v) :
    funcPairs v = funcPairs u := by
  obtain ⟨gk, ga, ck, ca, rfl⟩ := h
  rfl

theorem pfStep_caddr (f : Nat) (gsnap csnap : Nat → Bool) (w : World)
    (a : Nat × String) (f' : Nat) (hf : f' ≠ f) :
    (pfStep f gsnap csnap w a).caddr f' = w.caddr f' := by
  by_cases hc : csnap a.1 <;> by_cases hg : gsnap a.1 <;>
    simp [pfStep, gdec, cincAt, Function.update_apply, hc, hg, hf]

theorem pfFun_ckeys_other (w acc : World) (g f' : Nat) (k : String) (hf : f' ≠ g) :
    (pfFun w acc g).ckeys f' k = acc.ckeys f' k := by
  unfold pfFun
  split
  · rfl
  · rw [pfFold_ckeys, if_neg hf]
    exact Nat.add_zero _

theorem pfFun_caddr_other (w acc : World) (g f' : Nat) (hf : f' ≠ g) :
    (pfFun w acc g).caddr f' = acc.caddr f' := by
  unfold pfFun
  split
  · rfl
  · exact foldl_proj_eq (fun v => v.caddr f') _ (fun a x => pfStep_caddr g _ _ a x f' hf) _ acc

theorem pfFunFold_ckeys_other (w : World) (f' : Nat) (k : String) :
    ∀ (L : List Nat) (u : World), f' ∉ L →
      (L.foldl (pfFun w) u).ckeys f' k = u.ckeys f' k := by
  intro L
  induction L with
  | nil => intro u _; rfl
  | cons g t ih =>
      intro u hm
      rw [List.foldl_cons,
        ih (pfFun w u g) (fun hh => hm (List.mem_cons_of_mem g hh)),
        pfFun_ckeys_other w u g f' k (fun he => hm (List.mem_cons.mpr (Or.inl he)))]

/-- A fold whose step is the identity outside a predicate only visits the
satisfying elements. -/
theorem foldl_skip_filter {α β : Type} (p : β → Bool) (g : α → β → α)
    (hskip : ∀ acc b, p b = false → g acc b = acc) :
    ∀ (l : List β) (a : α), l.foldl g a = (l.filter p).foldl g a := by
  intro l
  induction l with
  | nil => intro a; rfl
  | cons b t ih =>
      intro a
      rw [List.foldl_cons, List.filter_cons]
      by_cases hb : p b = true
      · rw [if_pos hb, List.foldl_cons, ih]
      · have hb' : p b = false := by simp_all
        rw [if_neg hb, hskip a b hb', ih]

/-- Contents formula of the whole cache-build fold: a non-import function
with its ledger rows still untouched receives exactly the guarded
increments of its own pairs, and nothing thereafter touches it. -/
theorem pfAll_ckeys (w : World) :
    ∀ (L : List Nat) (u : World), LedgerOnly w u → L.Nodup →
      ∀ f ∈ L, f ∉ w.imports → u.ckeys f = w.ckeys f → u.caddr f = w.caddr f →
      ∀ k, (L.foldl (pfFun w) u).ckeys f k
        = w.ckeys f k + (funcPairs w f).countP
            (fun p => decide (p.2 = k) && !(decide (0 < w.caddr f p.1))) := by
  intro L
  induction L with
  | nil =>
      intro u _ _ f hf
      exact absurd hf (List.not_mem_nil f)
  | cons g t ih =>
      intro u hLw hnd f hf himp hck hca k
      rw [List.nodup_cons] at hnd
      rw [List.foldl_cons]
      rcases List.mem_cons.mp hf with hfg | hft
      · rw [← hfg] at hnd ⊢
        rw [pfFunFold_ckeys_other w f k t _ hnd.1]
        unfold pfFun
        rw [if_neg himp, pfFold_ckeys, if_pos rfl, hLw.funcPairs_eq, hck, hca]
      · have hfg : f ≠ g := fun he => hnd.1 (he ▸ hft)
        have hck' : (pfFun w u g).ckeys f = w.ckeys f := by
          funext k'
          rw [pfFun_ckeys_other w u g f k' hfg]
          exact congrFun hck k'
        have hca' : (pfFun w u g).caddr f = w.caddr f := by
          rw [pfFun_caddr_other w u g f hfg]
          exact hca
        exact ih (pfFun w u g) (ledgerOnly_trans hLw (ledgerOnly_pfFun w u g))
          hnd.2 f hft himp hck' hca' k

/-- Globals formula of the whole cache-build fold: the stale-snapshot
decrements of every non-import function accumulate; imports contribute
nothing. -/
theorem pfAll_gkeys (w : World) :
    ∀ (L : List Nat) (u : World), LedgerOnly w u → ∀ k,
      (L.foldl (pfFun w) u).gkeys k
        = u.gkeys k - ((L.filter (fun f => decide (f ∉ w.imports))).map
            (fun f => (funcPairs w f).countP
              (fun p => decide (p.2 = k) && decide (0 < w.gaddr p.1)))).sum := by
  intro L
  induction L with
  | nil => intro u _ k; simp
  | cons g t ih =>
      intro u hLw k
      rw [List.foldl_cons, List.filter_cons]
      by_cases hg : g ∈ w.imports
      · rw [if_neg (by simp [hg])]
        have hstep : pfFun w u g = u := by
          unfold pfFun
          exact if_pos hg
        rw [hstep]
        exact ih u hLw k
      · rw [if_pos (by simp [hg]), List.map_cons, List.sum_cons]
        have hstep : (pfFun w u g).gkeys k
            = u.gkeys k - (funcPairs w g).countP
                (fun p => decide (p.2 = k) && decide (0 < w.gaddr p.1)) := by
          unfold pfFun
          rw [if_neg hg, pfFold_gkeys, hLw.funcPairs_eq]
        rw [ih (pfFun w u g) (ledgerOnly_trans hLw (ledgerOnly_pfFun w u g)) k, hstep,
          Nat.sub_sub]

/-- C7 (amended): the initial cache build visits exactly the non-import
functions of the database, in order (imported functions are skipped
entirely); for each such function it walks every chunk, every address and
every tag key at it, incrementing the key in contents[owner] only when
the address is NOT already present in the owner's contents cache
snapshot; and it decrements each key in globals once per visited pair
whose address is in the stale globals snapshot, accumulated over every
non-import function. -/
theorem c7_cache_build_guarded (w : World) (hnd : w.funcs.Nodup) :
    processFunctions w
        = (w.funcs.filter (fun f => decide (f ∉ w.imports))).foldl (pfFun w) w
      ∧ (∀ f ∈ w.funcs, f ∉ w.imports → ∀ k,
          (processFunctions w).ckeys f k
            = w.ckeys f k + (funcPairs w f).countP
                (fun p => decide (p.2 = k) && !(decide (0 < w.caddr f p.1))))
      ∧ (∀ k, (processFunctions w).gkeys k
            = w.gkeys k - ((w.funcs.filter (fun f => decide (f ∉ w.imports))).map
                (fun f => (funcPairs w f).countP
                  (fun p => decide (p.2 = k) && decide (0 < w.gaddr p.1)))).sum) := by
  have hfold : processFunctions w = w.funcs.foldl (pfFun w) w := rfl
  refine ⟨?_, ?_, ?_⟩
  · rw [hfold]
    refine foldl_skip_filter (fun f => decide (f ∉ w.imports)) (pfFun w)
      (fun acc f hf => ?_) w.funcs w
    unfold pfFun
    exact if_pos (not_not.mp (of_decide_eq_false hf))
  · intro f hf himp k
    rw [hfold]
    exact pfAll_ckeys w w.funcs w (ledgerOnly_refl w) hnd f hf himp rfl rfl k
  · intro k
    rw [hfold]
    exact pfAll_gkeys w w.funcs w (ledgerOnly_refl w) k

/-- Single-function world for C7 whose only tagged address is already in
the function's contents cache. -/
def cw7 : World :=
  { w0 with
    funcs := [100],
    chunksOf := fun a => if a = 100 then [(100, 104)] else [],
    enumAddrs := fun a b => if a = 100 ∧ b = 104 then [100] else [],
    cmts := fun a _ => if a = 100 then "a:1" else "",
    ckeys := fun f k => if f = 100 ∧ k = "a" then 1 else 0,
    caddr := fun f a => if f = 100 ∧ a = 100 then 1 else 0 }

/-- C7 counterexample: function 100 carries tag a at address 100, which is
already present in the function's contents cache; the claim says the build
increments contents[100][a] (to 2), but the code leaves it at 1 because of
the contents-snapshot guard. -/
theorem c7_cache_build_counterexample :
    cw7.funcs = [100] ∧ cw7.imports = [] ∧ tagKeys cw7 100 = ["a"]
    ∧ 0 < cw7.caddr 100 100
    ∧ cw7.ckeys 100 "a" = 1
    ∧ (processFunctions cw7).ckeys 100 "a" = 1 := by
  refine ⟨rfl, rfl, by decide, by decide, by decide, by decide⟩

/-- Three-function world for C7: function 100 carries tags a (uncached,
stale-global) and b (already cached), function 200 carries tag a with no
stale global entry, and function 300 is an import carrying tag a with a
stale global entry. -/
def cw7m : World :=
  { w0 with
    funcs := [100, 200, 300],
    imports := [300],
    chunksOf := fun f =>
      if f = 100 then [(100, 102)] else if f = 200 then [(200, 201)]
      else if f = 300 then [(300, 301)] else [],
    enumAddrs := fun a b =>
      if a = 100 ∧ b = 102 then [100, 101] else if a = 200 ∧ b = 201 then [200]
      else if a = 300 ∧ b = 301 then [300] else [],
    cmts := fun a _ =>
      if a = 100 then "a:1" else if a = 101 then "b:2" else if a = 200 then "a:9"
      else if a = 300 then "a:7" else "",
    gkeys := fun k => if k = "a" then 2 else 0,
    gaddr := fun a => if a = 100 ∨ a = 300 then 1 else 0,
    ckeys := fun f k => if f = 100 ∧ k = "b" then 1 else 0,
    caddr := fun f a => if f = 100 ∧ a = 101 then 1 else 0 }

/-- Witness for C7's amended statement at the three-function world: the
uncached tag is tallied, the cached tag is not, and the stale globals
entries of the two non-import functions are decremented while the
import's stale entry is untouched. -/
theorem c7_cache_build_guarded_witness :
    (processFunctions cw7m).ckeys 100 "a" = 1
      ∧ (processFunctions cw7m).ckeys 100 "b" = 1
      ∧ (processFunctions cw7m).gkeys "a" = 1 := by
  have h := c7_cache_build_guarded cw7m (by decide)
  refine ⟨?_, ?_, ?_⟩
  · rw [h.2.1 100 (by decide) (by decide) "a"]
    decide
  · rw [h.2.1 100 (by decide) (by decide) "b"]
    decide
  · rw [h.2.2 "a"]
    decide


/-! ## Lookup lemmas for the altval store -/

theorem sfind_eq_none_iff {α : Type} {s : List (Nat × α)} {a : Nat} :
    sfind s a = none ↔ a ∉ s.map Prod.fst := by
  induction s with
  | nil => simp [sfind]
  | cons p t ih =>
      by_cases h : p.1 = a
      · simp [sfind, h]
      · simp [sfind, h, ih, Ne.symm h]

theorem mem_of_sfind_eq_some {α : Type} {s : List (Nat × α)} {a : Nat} {c : α}
    (h : sfind s a = some c) : (a, c) ∈ s := by
  induction s with
  | nil => simp [sfind] at h
  | cons p t ih =>
      simp only [sfind] at h
      by_cases hp : p.1 = a
      · rw [if_pos hp] at h
        have hpc : p = (a, c) := by
          obtain ⟨p1, p2⟩ := p
          simp only [Option.some.injEq] at h
          simp_all
        rw [hpc]
        exact List.mem_cons_self _ _
      · rw [if_neg hp] at h
        exact List.mem_cons_of_mem _ (ih h)

theorem sfind_eq_some_of_mem {α : Type} {s : List (Nat × α)}
    (hnd : (s.map Prod.fst).Nodup) {a : Nat} {c : α} (h : (a, c) ∈ s) :
    sfind s a = some c := by
  induction s with
  | nil => cases h
  | cons p t ih =>
      rw [List.map_cons, List.nodup_cons] at hnd
      rcases List.mem_cons.mp h with h1 | h1
      · rw [← h1]
        simp [sfind]
      · have hne : p.1 ≠ a := by
          intro he
          apply hnd.1
          rw [he]
          exact List.mem_map.mpr ⟨(a, c), h1, rfl⟩
        simp only [sfind, if_neg hne]
        exact ih hnd.2 h1

theorem key_inj {α : Type} {s : List (Nat × α)} (hnd : (s.map Prod.fst).Nodup)
    {p q : Nat × α} (hp : p ∈ s) (hq : q ∈ s) (h : p.1 = q.1) : p = q := by
  have h1 : sfind s p.1 = some p.2 :=
    sfind_eq_some_of_mem hnd (by rw [Prod.mk.eta]; exact hp)
  have h2 : sfind s q.1 = some q.2 :=
    sfind_eq_some_of_mem hnd (by rw [Prod.mk.eta]; exact hq)
  rw [h, h2] at h1
  exact Prod.ext_iff.mpr ⟨h, (Option.some.inj h1).symm⟩

theorem sfind_perm {α : Type} {s₁ s₂ : List (Nat × α)} (hp : s₁.Perm s₂)
    (hnd : (s₁.map Prod.fst).Nodup) (a : Nat) : sfind s₁ a = sfind s₂ a := by
  have hnd₂ : (s₂.map Prod.fst).Nodup := ((hp.map Prod.fst).nodup_iff).mp hnd
  cases hc : sfind s₁ a with
  | none =>
      symm
      rw [sfind_eq_none_iff]
      intro hm
      exact (sfind_eq_none_iff.mp hc) (((hp.map Prod.fst).mem_iff).mpr hm)
  | some c =>
      exact (sfind_eq_some_of_mem hnd₂ (hp.subset (mem_of_sfind_eq_some hc))).symm

theorem sfind_append_left {α : Type} {s₁ : List (Nat × α)} {a : Nat} {c : α}
    (h : sfind s₁ a = some c) (s₂ : List (Nat × α)) : sfind (s₁ ++ s₂) a = some c := by
  induction s₁ with
  | nil => simp [sfind] at h
  | cons p t ih =>
      rw [List.cons_append]
      by_cases hp : p.1 = a
      · simp only [sfind, if_pos hp] at h ⊢
        exact h
      · simp only [sfind, if_neg hp] at h ⊢
        exact ih h

/-! ## Structure of the relocation fold (hooks.py, __relocate_globals) -/

theorem relocGlobals_cons (b1 b2 : Nat) (e : Nat × Nat) (E : List (Nat × Nat)) (m : AltMap)
    (hT : b2 + (e.1 - b1) ∉ m.map Prod.fst) :
    relocGlobals b1 b2 (e :: E) m
      = relocGlobals b1 b2 E ((b2 + (e.1 - b1), e.2) :: altRemove m e.1) := by
  have hrem : altRemove (altRemove m e.1) (b2 + (e.1 - b1)) = altRemove m e.1 := by
    apply List.filter_eq_self.mpr
    intro p hp
    have hpm : p ∈ m := (List.mem_filter.mp hp).1
    simp only [decide_eq_true_eq]
    intro hh
    exact hT (List.mem_map.mpr ⟨p, hpm, hh⟩)
  simp only [relocGlobals, List.foldl_cons]
  congr 1
  show ((b2 + (e.1 - b1), e.2) : Nat × Nat)
      :: altRemove (altRemove m e.1) (b2 + (e.1 - b1)) = _
  rw [hrem]

theorem relocGlobals_structure (b1 b2 : Nat) :
    ∀ (E m : AltMap),
      (∀ e ∈ E, e ∈ m) →
      (m.map Prod.fst).Nodup →
      (E.map Prod.fst).Nodup →
      (∀ e ∈ E, ∀ p ∈ m, b2 + (e.1 - b1) ≠ p.1) →
      (∀ e ∈ E, ∀ x ∈ E, b2 + (e.1 - b1) = b2 + (x.1 - b1) → e.1 = x.1) →
      relocGlobals b1 b2 E m
        = (E.map (shiftEntry b1 b2)).reverse ++ removeKeys (E.map Prod.fst) m := by
  intro E
  induction E with
  | nil =>
      intro m _ _ _ _ _
      simp [relocGlobals, removeKeys]
  | cons e E ih =>
      intro m hsub hndm hndE hT hInj
      rw [List.map_cons, List.nodup_cons] at hndE
      have hrm_sub : ∀ p ∈ altRemove m e.1, p ∈ m := fun p hp => (List.mem_filter.mp hp).1
      have hstep := relocGlobals_cons b1 b2 e E m (by
        intro hmem
        rcases List.mem_map.mp hmem with ⟨p, hpm, hpe⟩
        exact hT e (List.mem_cons_self e E) p hpm hpe.symm)
      rw [hstep]
      have hndm' : (((b2 + (e.1 - b1), e.2) :: altRemove m e.1).map Prod.fst).Nodup := by
        rw [List.map_cons, List.nodup_cons]
        constructor
        · intro hmem
          rcases List.mem_map.mp hmem with ⟨p, hp, hpe⟩
          exact hT e (List.mem_cons_self e E) p (hrm_sub p hp) hpe.symm
        · exact List.Nodup.sublist (List.Sublist.map _ (List.filter_sublist _)) hndm
      have hsub' : ∀ x ∈ E, x ∈ (b2 + (e.1 - b1), e.2) :: altRemove m e.1 := by
        intro x hx
        apply List.mem_cons_of_mem
        apply List.mem_filter.mpr
        refine ⟨hsub x (List.mem_cons_of_mem e hx), ?_⟩
        simp only [decide_eq_true_eq]
        intro hxe
        exact hndE.1 (hxe ▸ List.mem_map.mpr ⟨x, hx, rfl⟩)
      have hT' : ∀ x ∈ E, ∀ p ∈ (b2 + (e.1 - b1), e.2) :: altRemove m e.1,
          b2 + (x.1 - b1) ≠ p.1 := by
        intro x hx p hp
        rcases List.mem_cons.mp hp with hh | hh
        · rw [hh]
          intro heq
          have hxe := hInj x (List.mem_cons_of_mem e hx) e (List.mem_cons_self e E) heq
          exact hndE.1 (hxe ▸ List.mem_map.mpr ⟨x, hx, rfl⟩)
        · exact hT x (List.mem_cons_of_mem e hx) p (hrm_sub p hh)
      have hInj' : ∀ x ∈ E, ∀ y ∈ E, b2 + (x.1 - b1) = b2 + (y.1 - b1) → x.1 = y.1 :=
        fun x hx y hy => hInj x (List.mem_cons_of_mem e hx) y (List.mem_cons_of_mem e hy)
      rw [ih _ hsub' hndm' hndE.2 hT' hInj']
      have hhead : decide ((b2 + (e.1 - b1)) ∉ E.map Prod.fst) = true := by
        simp only [decide_eq_true_eq]
        intro hmem
        rcases List.mem_map.mp hmem with ⟨x, hx, hxe⟩
        exact hT e (List.mem_cons_self e E) x (hsub x (List.mem_cons_of_mem e hx)) hxe.symm
      have hkey : removeKeys (E.map Prod.fst) ((b2 + (e.1 - b1), e.2) :: altRemove m e.1)
          = (b2 + (e.1 - b1), e.2) :: removeKeys (e.1 :: E.map Prod.fst) m := by
        simp only [removeKeys, altRemove, List.filter_cons, hhead, if_true]
        rw [List.filter_filter]
        congr 1
        apply List.filter_congr
        intro p hp
        by_cases h1 : p.1 ∈ E.map Prod.fst <;> by_cases h2 : p.1 = e.1 <;>
          simp [h1, h2]
      rw [hkey]
      simp [shiftEntry, List.append_assoc]



set_option maxHeartbeats 1000000 in
/-- C5: segment relocation re-keys every moved ledger entry by the formula
old_address - old_base + new_base: each moved global is removed at its old
key and re-inserted at the shifted key with the same count, each
per-function contents address is rewritten by the same formula
(rekeyBlob), and relocating a segment from base b1 to b2 and then back
from b2 to b1 restores every address key and count, both for the global
store and for a per-function contents blob. -/
theorem c5_relocation_rekey_and_roundtrip
    (m : AltMap) (b1 b2 size : Nat)
    (hnd : (m.map Prod.fst).Nodup)
    (hdisj : b1 + size ≤ b2 ∨ b2 + size ≤ b1)
    (hout : ∀ p ∈ m, ¬(b1 ≤ p.1 ∧ p.1 < b1 + size) → ¬(b2 ≤ p.1 ∧ p.1 < b2 + size)) :
    (∀ p ∈ entriesIn m b1 size,
        sfind (segmMovedGlobals b1 b2 size m) (p.1 - b1 + b2) = some p.2
          ∧ sfind (segmMovedGlobals b1 b2 size m) p.1 = none)
      ∧ (∀ a, sfind (segmMovedGlobals b2 b1 size (segmMovedGlobals b1 b2 size m)) a
            = sfind m a)
      ∧ (∀ blob : List (Nat × Nat), (∀ p ∈ blob, b1 ≤ p.1) →
            rekeyBlob b2 b1 (rekeyBlob b1 b2 blob) = blob) := by
  have hsub₁ : ∀ e ∈ entriesIn m b1 size, e ∈ m := fun e he => (List.mem_filter.mp he).1
  have hrange : ∀ e ∈ entriesIn m b1 size, b1 ≤ e.1 ∧ e.1 < b1 + size := by
    intro e he
    have h := (List.mem_filter.mp he).2
    simpa [inRb] using h
  have hndE₁ : ((entriesIn m b1 size).map Prod.fst).Nodup :=
    List.Nodup.sublist (List.Sublist.map _ (List.filter_sublist _)) hnd
  have hT₁ : ∀ e ∈ entriesIn m b1 size, ∀ p ∈ m, b2 + (e.1 - b1) ≠ p.1 := by
    intro e he p hp heq
    have hre := hrange e he
    by_cases h1 : b1 ≤ p.1 ∧ p.1 < b1 + size
    · omega
    · have h2 := hout p hp h1
      omega
  have hInj₁ : ∀ x ∈ entriesIn m b1 size, ∀ y ∈ entriesIn m b1 size,
      b2 + (x.1 - b1) = b2 + (y.1 - b1) → x.1 = y.1 := by
    intro x hx y hy heq
    have h1 := hrange x hx
    have h2 := hrange y hy
    omega
  have hm₁ : segmMovedGlobals b1 b2 size m
      = ((entriesIn m b1 size).map (shiftEntry b1 b2)).reverse
          ++ removeKeys ((entriesIn m b1 size).map Prod.fst) m :=
    relocGlobals_structure b1 b2 (entriesIn m b1 size) m hsub₁ hnd hndE₁ hT₁ hInj₁
  have hrk : removeKeys ((entriesIn m b1 size).map Prod.fst) m
      = m.filter (fun p => !(inRb b1 size p)) := by
    unfold removeKeys
    apply List.filter_congr
    intro p hp
    by_cases h1 : inRb b1 size p = true
    · have hpE : p ∈ entriesIn m b1 size := List.mem_filter.mpr ⟨hp, h1⟩
      have hmem : p.1 ∈ (entriesIn m b1 size).map Prod.fst :=
        List.mem_map.mpr ⟨p, hpE, rfl⟩
      simp [hmem, h1]
    · have hpE : p.1 ∉ (entriesIn m b1 size).map Prod.fst := by
        intro hmem
        rcases List.mem_map.mp hmem with ⟨q, hq, hqe⟩
        have hqm : q ∈ m := (List.mem_filter.mp hq).1
        have hqp : q = p := key_inj hnd hqm hp hqe
        rw [hqp] at hq
        exact h1 (List.mem_filter.mp hq).2
      simp [hpE, h1]
  rw [hrk] at hm₁
  have hkeysrev : ((((entriesIn m b1 size).map (shiftEntry b1 b2)).reverse).map Prod.fst)
      = ((entriesIn m b1 size).map (fun e => b2 + (e.1 - b1))).reverse := by
    rw [List.map_reverse, List.map_map]
    rfl
  have hndshift : ((entriesIn m b1 size).map (fun e => b2 + (e.1 - b1))).Nodup :=
    List.Nodup.map_on
      (fun x hx y hy hxy =>
        key_inj hnd (hsub₁ x hx) (hsub₁ y hy) (hInj₁ x hx y hy hxy))
      (List.Nodup.of_map Prod.fst hndE₁)
  have hone : ∀ p ∈ entriesIn m b1 size,
      sfind (segmMovedGlobals b1 b2 size m) (p.1 - b1 + b2) = some p.2 := by
    intro p hp
    rw [hm₁]
    have hmem : ((b2 + (p.1 - b1), p.2) : Nat × Nat)
        ∈ ((entriesIn m b1 size).map (shiftEntry b1 b2)).reverse := by
      rw [List.mem_reverse]
      exact List.mem_map.mpr ⟨p, hp, rfl⟩
    have hndrev : ((((entriesIn m b1 size).map (shiftEntry b1 b2)).reverse).map Prod.fst).Nodup := by
      rw [hkeysrev]
      exact List.nodup_reverse.mpr hndshift
    have hfound := sfind_eq_some_of_mem hndrev hmem
    rw [Nat.add_comm (p.1 - b1) b2]
    exact sfind_append_left hfound _
  have hgone : ∀ p ∈ entriesIn m b1 size,
      sfind (segmMovedGlobals b1 b2 size m) p.1 = none := by
    intro p hp
    have hrp := hrange p hp
    rw [hm₁, sfind_eq_none_iff, List.map_append]
    intro hmem
    rcases List.mem_append.mp hmem with hh | hh
    · rw [hkeysrev, List.mem_reverse] at hh
      rcases List.mem_map.mp hh with ⟨x, hx, hxe⟩
      have hrx := hrange x hx
      omega
    · rcases List.mem_map.mp hh with ⟨q, hq, hqe⟩
      have h1 := List.mem_filter.mp hq
      have h2 : ¬(b1 ≤ q.1 ∧ q.1 < b1 + size) := by
        have hbv := h1.2
        simp only [inRb, Bool.not_eq_true', decide_eq_false_iff_not] at hbv
        exact hbv
      omega
  have hE₂ : entriesIn (segmMovedGlobals b1 b2 size m) b2 size
      = ((entriesIn m b1 size).map (shiftEntry b1 b2)).reverse := by
    show List.filter _ _ = _
    rw [hm₁, List.filter_append]
    have h1 : List.filter (inRb b2 size)
          (((entriesIn m b1 size).map (shiftEntry b1 b2)).reverse)
        = ((entriesIn m b1 size).map (shiftEntry b1 b2)).reverse := by
      apply List.filter_eq_self.mpr
      intro p hp
      rw [List.mem_reverse] at hp
      rcases List.mem_map.mp hp with ⟨x, hx, hxe⟩
      have hrx := hrange x hx
      rw [← hxe]
      simp only [inRb, shiftEntry, decide_eq_true_eq]
      omega
    have h2 : List.filter (inRb b2 size) (List.filter (fun p => !(inRb b1 size p)) m)
        = [] := by
      apply List.filter_eq_nil_iff.mpr
      intro p hp
      have h3 := List.mem_filter.mp hp
      have h4 : ¬(b1 ≤ p.1 ∧ p.1 < b1 + size) := by
        have hbv := h3.2
        simp only [inRb, Bool.not_eq_true', decide_eq_false_iff_not] at hbv
        exact hbv
      have h5 := hout p h3.1 h4
      simp only [inRb, decide_eq_true_eq]
      exact h5
    rw [h1, h2, List.append_nil]
  have hsub₂ : ∀ e ∈ entriesIn (segmMovedGlobals b1 b2 size m) b2 size,
      e ∈ segmMovedGlobals b1 b2 size m := fun e he => (List.mem_filter.mp he).1
  have hndm₁ : ((segmMovedGlobals b1 b2 size m).map Prod.fst).Nodup := by
    rw [hm₁, List.map_append, hkeysrev]
    apply List.Nodup.append
    · exact List.nodup_reverse.mpr hndshift
    · exact List.Nodup.sublist (List.Sublist.map _ (List.filter_sublist _)) hnd
    · intro a ha hb
      rw [List.mem_reverse] at ha
      rcases List.mem_map.mp ha with ⟨x, hx, hxe⟩
      rcases List.mem_map.mp hb with ⟨q, hq, hqe⟩
      have hrx := hrange x hx
      have h3 := List.mem_filter.mp hq
      have h4 : ¬(b1 ≤ q.1 ∧ q.1 < b1 + size) := by
        have hbv := h3.2
        simp only [inRb, Bool.not_eq_true', decide_eq_false_iff_not] at hbv
        exact hbv
      have h5 := hout q h3.1 h4
      omega
  have hndE₂ : ((entriesIn (segmMovedGlobals b1 b2 size m) b2 size).map Prod.fst).Nodup := by
    rw [hE₂, hkeysrev]
    exact List.nodup_reverse.mpr hndshift
  have hT₂ : ∀ e ∈ entriesIn (segmMovedGlobals b1 b2 size m) b2 size,
      ∀ p ∈ segmMovedGlobals b1 b2 size m, b1 + (e.1 - b2) ≠ p.1 := by
    intro e he p hp
    rw [hE₂, List.mem_reverse] at he
    rcases List.mem_map.mp he with ⟨x, hx, hxe⟩
    have hrx := hrange x hx
    rw [hm₁] at hp
    rcases List.mem_append.mp hp with hh | hh
    · rw [List.mem_reverse] at hh
      rcases List.mem_map.mp hh with ⟨y, hy, hye⟩
      have hry := hrange y hy
      rw [← hxe, ← hye]
      simp only [shiftEntry]
      omega
    · have h3 := List.mem_filter.mp hh
      have h4 : ¬(b1 ≤ p.1 ∧ p.1 < b1 + size) := by
        have hbv := h3.2
        simp only [inRb, Bool.not_eq_true', decide_eq_false_iff_not] at hbv
        exact hbv
      rw [← hxe]
      simp only [shiftEntry]
      omega
  have hInj₂ : ∀ x ∈ entriesIn (segmMovedGlobals b1 b2 size m) b2 size,
      ∀ y ∈ entriesIn (segmMovedGlobals b1 b2 size m) b2 size,
      b1 + (x.1 - b2) = b1 + (y.1 - b2) → x.1 = y.1 := by
    intro x hx y hy heq
    rw [hE₂, List.mem_reverse] at hx hy
    rcases List.mem_map.mp hx with ⟨u, hu, hue⟩
    rcases List.mem_map.mp hy with ⟨v, hv, hve⟩
    have hru := hrange u hu
    have hrv := hrange v hv
    rw [← hue, ← hve] at heq ⊢
    simp only [shiftEntry] at heq ⊢
    omega
  have hback : (((entriesIn (segmMovedGlobals b1 b2 size m) b2 size).map
        (shiftEntry b2 b1)).reverse)
      = entriesIn m b1 size := by
    rw [hE₂, List.map_reverse, List.reverse_reverse, List.map_map]
    have hpt : ∀ x ∈ entriesIn m b1 size,
        (shiftEntry b2 b1 ∘ shiftEntry b1 b2) x = id x := by
      intro x hx
      have hrx := hrange x hx
      have h1 : ((shiftEntry b2 b1 ∘ shiftEntry b1 b2) x).1 = x.1 := by
        simp only [Function.comp, shiftEntry]
        omega
      have h2 : ((shiftEntry b2 b1 ∘ shiftEntry b1 b2) x).2 = x.2 := rfl
      exact Prod.ext_iff.mpr ⟨h1, h2⟩
    rw [List.map_congr_left hpt, List.map_id]
  have hrk₂ : removeKeys ((entriesIn (segmMovedGlobals b1 b2 size m) b2 size).map Prod.fst)
        (segmMovedGlobals b1 b2 size m)
      = List.filter (fun p => !(inRb b1 size p)) m := by
    rw [hE₂, hm₁]
    unfold removeKeys
    rw [List.filter_append]
    have h1 : List.filter
          (fun p => decide (p.1 ∉
            (((entriesIn m b1 size).map (shiftEntry b1 b2)).reverse).map Prod.fst))
          (((entriesIn m b1 size).map (shiftEntry b1 b2)).reverse) = [] := by
      apply List.filter_eq_nil_iff.mpr
      intro p hp
      simp only [decide_eq_true_eq, not_not]
      exact List.mem_map.mpr ⟨p, hp, rfl⟩
    have h2 : List.filter
          (fun p => decide (p.1 ∉
            (((entriesIn m b1 size).map (shiftEntry b1 b2)).reverse).map Prod.fst))
          (List.filter (fun p => !(inRb b1 size p)) m)
        = List.filter (fun p => !(inRb b1 size p)) m := by
      apply List.filter_eq_self.mpr
      intro p hp
      have h3 := List.mem_filter.mp hp
      have h4 : ¬(b1 ≤ p.1 ∧ p.1 < b1 + size) := by
        have hbv := h3.2
        simp only [inRb, Bool.not_eq_true', decide_eq_false_iff_not] at hbv
        exact hbv
      have h5 := hout p h3.1 h4
      simp only [decide_eq_true_eq]
      intro hmem
      rw [hkeysrev, List.mem_reverse] at hmem
      rcases List.mem_map.mp hmem with ⟨x, hx, hxe⟩
      have hrx := hrange x hx
      omega
    rw [h1, h2, List.nil_append]
  have hm₂ : segmMovedGlobals b2 b1 size (segmMovedGlobals b1 b2 size m)
      = entriesIn m b1 size ++ List.filter (fun p => !(inRb b1 size p)) m := by
    have h := relocGlobals_structure b2 b1
      (entriesIn (segmMovedGlobals b1 b2 size m) b2 size)
      (segmMovedGlobals b1 b2 size m) hsub₂ hndm₁ hndE₂ hT₂ hInj₂
    rw [hback, hrk₂] at h
    exact h
  have hperm : (entriesIn m b1 size
        ++ List.filter (fun p => !(inRb b1 size p)) m).Perm m :=
    List.filter_append_perm (inRb b1 size) m
  have hndfirst : ((entriesIn m b1 size
        ++ List.filter (fun p => !(inRb b1 size p)) m).map Prod.fst).Nodup :=
    ((hperm.map Prod.fst).nodup_iff).mpr hnd
  refine ⟨fun p hp => ⟨hone p hp, hgone p hp⟩, ?_, ?_⟩
  · intro a
    rw [hm₂]
    exact sfind_perm hperm hndfirst a
  · intro blob hb
    show List.map _ (List.map _ blob) = blob
    rw [List.map_map]
    have hpt : ∀ p ∈ blob,
        ((fun p : Nat × Nat => (p.1 - b2 + b1, p.2))
          ∘ (fun p : Nat × Nat => (p.1 - b1 + b2, p.2))) p = id p := by
      intro p hp
      have h1 := hb p hp
      have hfst : (((fun p : Nat × Nat => (p.1 - b2 + b1, p.2))
          ∘ (fun p : Nat × Nat => (p.1 - b1 + b2, p.2))) p).1 = p.1 := by
        simp only [Function.comp]
        omega
      exact Prod.ext_iff.mpr ⟨hfst, rfl⟩
    rw [List.map_congr_left hpt, List.map_id]

/-- Witness for C5 at a concrete store: globals [(17, 3), (50, 5)], the
segment [16, 24) moved to base 32 and back, and a contents blob [(17, 2)]
re-keyed forward and back. -/
theorem c5_relocation_rekey_and_roundtrip_witness :
    sfind (segmMovedGlobals 16 32 8 [(17, 3), (50, 5)]) 33 = some 3
      ∧ sfind (segmMovedGlobals 16 32 8 [(17, 3), (50, 5)]) 17 = none
      ∧ sfind (segmMovedGlobals 32 16 8 (segmMovedGlobals 16 32 8 [(17, 3), (50, 5)])) 50
          = some 5
      ∧ rekeyBlob 32 16 (rekeyBlob 16 32 [(17, 2)]) = [(17, 2)] := by
  have h := c5_relocation_rekey_and_roundtrip [(17, 3), (50, 5)] 16 32 8
    (by decide) (by decide) (by decide)
  refine ⟨?_, ?_, ?_, ?_⟩
  · exact (h.1 (17, 3) (by decide)).1
  · exact (h.1 (17, 3) (by decide)).2
  · rw [h.2.1 50]
    decide
  · exact h.2.2 [(17, 2)] (by decide)

end Minsc
